import Mathlib

/-!
Verification of `WireSections_to_FastHenry.py`: a converter from a
"Wire_Sections.txt" description of 3D wire sections into a FastHenry2
input deck.  The Python source is shallowly embedded below: strings are
`String`, real numbers are `ℚ`, Python dicts (insertion ordered) are
association lists, and fallible operations return `Except`/`Option`.
-/

set_option maxHeartbeats 1000000
set_option maxRecDepth 4000

namespace WireSections

/-! ### Decimal digit utilities (model of Python's `str`/`int`/`float` text forms) -/

/-- The character for a decimal digit `d < 10`. -/
def digitChar (d : ℕ) : Char := Char.ofNat (48 + d)

/-- Numeric value of a decimal digit character. -/
def charVal (c : Char) : ℕ := c.toNat - 48

/-- Little-endian decimal digits of `m`, with explicit fuel so that the
kernel can evaluate it.  `natDigitsAux fuel m = Nat.digits 10 m` when `m ≤ fuel`. -/
def natDigitsAux : ℕ → ℕ → List ℕ
  | 0, _ => []
  | _, 0 => []
  | fuel + 1, m + 1 => (m + 1) % 10 :: natDigitsAux fuel ((m + 1) / 10)

/-- Little-endian decimal digits of `m` (empty for `0`). -/
def digitsLE (m : ℕ) : List ℕ := natDigitsAux m m

/-- Decimal character rendering of a natural number, most significant first
(model of Python's `str` on a nonnegative `int`). -/
def natChars (m : ℕ) : List Char := ((digitsLE m).map digitChar).reverse

/-- Python `str(m)` for a natural number. -/
def natStr (m : ℕ) : String := if m = 0 then "0" else ⟨natChars m⟩

/-- Python `str(n)` for an integer. -/
def intStr (n : ℤ) : String := (if n < 0 then "-" else "") ++ natStr n.natAbs

/-- Numeric value of a big-endian list of decimal digit characters. -/
def digitsVal (l : List Char) : ℕ := Nat.ofDigits 10 ((l.map charVal).reverse)

theorem natDigitsAux_eq_digits : ∀ fuel m, m ≤ fuel → natDigitsAux fuel m = Nat.digits 10 m
  | 0, 0, _ => by simp [natDigitsAux]
  | 0, _ + 1, h => absurd h (by omega)
  | _ + 1, 0, _ => by simp [natDigitsAux]
  | fuel + 1, m + 1, h => by
    have hdiv : (m + 1) / 10 ≤ fuel := by
      have := Nat.div_lt_self (Nat.succ_pos m) (by norm_num : 1 < 10)
      omega
    rw [natDigitsAux, natDigitsAux_eq_digits fuel ((m + 1) / 10) hdiv,
      Nat.digits_def' (by norm_num : 1 < 10) (Nat.succ_pos m)]

theorem digitsLE_eq (m : ℕ) : digitsLE m = Nat.digits 10 m :=
  natDigitsAux_eq_digits m m le_rfl

theorem digitsLE_lt (m : ℕ) : ∀ d ∈ digitsLE m, d < 10 := by
  intro d hd
  rw [digitsLE_eq] at hd
  exact Nat.digits_lt_base (by norm_num) hd

theorem ofDigits_digitsLE (m : ℕ) : Nat.ofDigits 10 (digitsLE m) = m := by
  rw [digitsLE_eq]; exact Nat.ofDigits_digits 10 m

theorem charVal_digitChar {d : ℕ} (h : d < 10) : charVal (digitChar d) = d := by
  interval_cases d <;> rfl

theorem isDigit_digitChar {d : ℕ} (h : d < 10) : (digitChar d).isDigit = true := by
  interval_cases d <;> rfl

theorem digitChar_ne_dot {d : ℕ} (h : d < 10) : digitChar d ≠ '.' := by
  interval_cases d <;> decide

theorem digitChar_eq_zeroChar {d : ℕ} (h : d < 10) : (digitChar d = '0') ↔ d = 0 := by
  interval_cases d <;> decide

theorem natChars_all_digit (m : ℕ) : ∀ c ∈ natChars m, c.isDigit = true := by
  intro c hc
  rcases List.mem_reverse.mp hc |> List.mem_map.mp with ⟨d, hd, rfl⟩
  exact isDigit_digitChar (digitsLE_lt m d hd)

theorem natStr_all_digit (m : ℕ) : ∀ c ∈ (natStr m).data, c.isDigit = true := by
  intro c hc
  by_cases h : m = 0
  · subst h
    have h0 : natStr 0 = "0" := rfl
    rw [h0] at hc
    have h1 : ("0" : String).data = ['0'] := rfl
    rw [h1, List.mem_singleton] at hc
    subst hc; rfl
  · rw [natStr, if_neg h] at hc
    exact natChars_all_digit m c hc

theorem digitsLE_ne_nil {m : ℕ} (h : m ≠ 0) : digitsLE m ≠ [] := by
  intro he
  have h2 := ofDigits_digitsLE m
  rw [he, Nat.ofDigits_nil] at h2
  exact h h2.symm

theorem natStr_ne_empty (m : ℕ) : (natStr m).data ≠ [] := by
  by_cases h : m = 0
  · subst h; intro hc; cases hc
  · rw [natStr, if_neg h]
    intro hc
    have : digitsLE m = [] := by
      have hlen := congrArg List.length hc
      simp only [natChars, List.length_reverse, List.length_map, List.length_nil] at hlen
      exact List.length_eq_zero.mp hlen
    exact digitsLE_ne_nil h this

theorem digitsVal_natChars (m : ℕ) : digitsVal (natChars m) = m := by
  unfold digitsVal natChars
  rw [List.map_reverse, List.reverse_reverse, List.map_map]
  have h1 : (digitsLE m).map (charVal ∘ digitChar) = (digitsLE m).map id :=
    List.map_congr_left (fun d hd => charVal_digitChar (digitsLE_lt m d hd))
  rw [h1, List.map_id, ofDigits_digitsLE]

theorem digitsVal_natStr (m : ℕ) : digitsVal (natStr m).data = m := by
  by_cases h : m = 0
  · subst h; rfl
  · rw [natStr, if_neg h]; exact digitsVal_natChars m

theorem natStr_injective {m n : ℕ} (h : natStr m = natStr n) : m = n := by
  have := congrArg (fun s => digitsVal s.data) h
  simpa [digitsVal_natStr] using this

/-! ### Python string primitives -/

/-- Python considers these characters whitespace for `str.strip()`. -/
def pyWs (c : Char) : Bool :=
  c == ' ' || c == '\t' || c == '\n' || c == '\x0d' || c == '\x0b' || c == '\x0c'

/-- Python `s.strip()`: remove leading and trailing whitespace. -/
def pyStrip (s : String) : String :=
  ⟨((s.data.dropWhile pyWs).reverse.dropWhile pyWs).reverse⟩

/-- Python `s.lower()` (ASCII; sufficient for the tokens involved). -/
def pyToLower (s : String) : String := ⟨s.data.map Char.toLower⟩

/-- Python `s.upper()` (ASCII; sufficient for the tokens involved). -/
def pyToUpper (s : String) : String := ⟨s.data.map Char.toUpper⟩

/-- Python `s.rstrip(c)` on a character list: drop trailing copies of `c`. -/
def pyRstrip (l : List Char) (c : Char) : List Char :=
  (l.reverse.dropWhile (· == c)).reverse

/-- `[p.strip() for p in line.split(",")]` -/
def splitParts (line : String) : List String :=
  (line.splitOn ",").map pyStrip

/-- Magnitude part of a Python `float()` literal: digits, optional dot and
fractional digits, optional exponent.  `none` when the text is not numeric. -/
def pyFloatMag (cs : List Char) : Option ℚ :=
  let ip := cs.takeWhile (·.isDigit)
  let r1 := cs.drop ip.length
  let fp := match r1 with
    | '.' :: t => t.takeWhile (·.isDigit)
    | _ => []
  let r2 := match r1 with
    | '.' :: t => t.drop fp.length
    | _ => r1
  if ip.isEmpty && fp.isEmpty then none
  else
    let mant : ℚ := (digitsVal ip : ℚ) + (digitsVal fp : ℚ) / 10 ^ fp.length
    match r2 with
    | [] => some mant
    | 'e' :: t => pyFloatExp mant t
    | 'E' :: t => pyFloatExp mant t
    | _ => none
where
  pyFloatExp (mant : ℚ) (t : List Char) : Option ℚ :=
    let (neg, t2) := match t with
      | '-' :: u => (true, u)
      | '+' :: u => (false, u)
      | _ => (false, t)
    let eds := t2.takeWhile (·.isDigit)
    if eds.isEmpty || !(t2.drop eds.length).isEmpty then none
    else if neg then some (mant / 10 ^ digitsVal eds) else some (mant * 10 ^ digitsVal eds)

/-- Model of Python `float(s)` on an already-stripped string (returning an
exact rational; `inf`/`nan`/underscores are not modelled). -/
def pyFloat (s : String) : Option ℚ :=
  match s.data with
  | '-' :: rest => (pyFloatMag rest).map Neg.neg
  | '+' :: rest => pyFloatMag rest
  | cs => pyFloatMag cs

/-- Model of Python `int(s)` on an already-stripped string. -/
def pyInt (s : String) : Option ℤ :=
  match s.data with
  | '-' :: ds => (pyDigitsOnly ds).map (fun n => -(n : ℤ))
  | '+' :: ds => (pyDigitsOnly ds).map (fun n => (n : ℤ))
  | ds => (pyDigitsOnly ds).map (fun n => (n : ℤ))
where
  pyDigitsOnly (ds : List Char) : Option ℕ :=
    if !ds.isEmpty && ds.all (·.isDigit) then some (digitsVal ds) else none

/-! ### Parser (`parse_wire_sections`) -/

/-- A parsed point: 1-based index within its section, coordinates, and the
1-based position of its source line among the retained non-blank lines. -/
structure Point where
  idx : ℕ
  x : ℚ
  y : ℚ
  z : ℚ
  line : ℕ
  deriving DecidableEq

/-- A raw point before per-section indices are assigned. -/
abbrev RawPt := ℚ × ℚ × ℚ × ℕ

/-- Stripped, non-blank lines of the input file. -/
def cleanLines (raw : List String) : List String :=
  (raw.map pyStrip).filter (fun l => l != "")

/-- Extract `(section name, x, y, z)` from a data line, or `none` if it is
malformed (fewer than 4 comma fields, wrong name prefix, non-numeric
coordinates). -/
def dataOf (line : String) : Option (String × ℚ × ℚ × ℚ) :=
  let parts := splitParts line
  if parts.length < 4 then none
  else
    let sec := parts.getD 0 ""
    if !sec.startsWith "Section-" then none
    else
      match pyFloat (parts.getD 1 ""), pyFloat (parts.getD 2 ""), pyFloat (parts.getD 3 "") with
      | some x, some y, some z => some (sec, x, y, z)
      | _, _, _ => none

/-- Append a point to its section in the insertion-ordered mapping
(model of `sections[sec_name].append(...)` on a Python dict). -/
def addPoint (secs : List (String × List RawPt)) (name : String) (p : RawPt) :
    List (String × List RawPt) :=
  match secs with
  | [] => [(name, [p])]
  | (n, ps) :: rest =>
    if n = name then (n, ps ++ [p]) :: rest else (n, ps) :: addPoint rest name p

/-- The main parsing loop: walk the retained lines, skipping indices below
`start`, collecting well-formed data lines.  `i` is the current 0-based index;
recorded line numbers are `i + 1`. -/
def collectPts : List String → ℕ → ℕ → List (String × List RawPt) → List (String × List RawPt)
  | [], _, _, acc => acc
  | l :: rest, i, start, acc =>
    if i < start then collectPts rest (i + 1) start acc
    else
      match dataOf l with
      | none => collectPts rest (i + 1) start acc
      | some (sec, x, y, z) => collectPts rest (i + 1) start (addPoint acc sec (x, y, z, i + 1))

/-- Assign 1-based per-section indices after collection. -/
def assignIdx (secs : List (String × List RawPt)) : List (String × List Point) :=
  secs.map (fun e => (e.1, e.2.enum.map (fun kp => ⟨kp.1 + 1, kp.2.1, kp.2.2.1, kp.2.2.2.1, kp.2.2.2.2⟩)))

def mmTokens : List String := ["mm", "millimeter", "millimetre"]
def cmTokens : List String := ["cm", "centimeter", "centimetre"]

/-- Embedding of `parse_wire_sections`: from the raw lines of the file to
`(units, sections)`, or an error for an empty input. -/
def parse_wire_sections (raw : List String) :
    Except String (String × List (String × List Point)) :=
  let lines := cleanLines raw
  if lines.isEmpty then .error "Input file is empty or only whitespace."
  else
    let first := pyToLower (pyStrip (lines.getD 0 ""))
    let us := if mmTokens.contains first then ("MM", 2)
              else if cmTokens.contains first then ("CM", 2)
              else ("MM", 0)
    let start := if us.2 ≥ lines.length then 0 else us.2
    .ok (us.1, assignIdx (collectPts lines 0 start []))

/-! ### Section sort key (`section_sort_key`) and Python's `sorted` -/

/-- The part of `name` after its last hyphen (second component of
Python's `name.rsplit("-", 1)`). -/
def afterLastHyphen (name : String) : String :=
  ⟨(name.data.reverse.takeWhile (· != '-')).reverse⟩

/-- The part of `name` before its last hyphen (first component of
Python's `name.rsplit("-", 1)`). -/
def beforeLastHyphen (name : String) : String :=
  ⟨((name.data.reverse.dropWhile (· != '-')).drop 1).reverse⟩

/-- Embedding of `section_sort_key`.  The second tuple component is a Python
`int` or a Python `str`, modelled as a sum. -/
def section_sort_key (sec_name : String) : String × (ℤ ⊕ String) :=
  let name := pyStrip sec_name
  if name.data.contains '-' then
    let base := pyStrip (beforeLastHyphen name)
    let num := pyStrip (afterLastHyphen name)
    match pyInt num with
    | some k => (base, .inl k)
    | none => (base, .inr name)
  else ("", .inr name)

/-- Python `<` on the dynamic second components of two sort keys:
`none` models the `TypeError` raised when an `int` meets a `str`. -/
def pyValLt : (ℤ ⊕ String) → (ℤ ⊕ String) → Option Bool
  | .inl m, .inl n => some (decide (m < n))
  | .inr s, .inr t => some (decide (s < t))
  | _, _ => none

/-- Python `<` on two sort-key tuples (lexicographic); `none` models a
`TypeError`. -/
def pyKeyLt (k1 k2 : String × (ℤ ⊕ String)) : Option Bool :=
  if k1.1 = k2.1 then pyValLt k1.2 k2.2 else some (decide (k1.1 < k2.1))

/-- Every pair of keys drawn from the list can be compared without a
`TypeError`. -/
def pairwiseComparable : List (String × (ℤ ⊕ String)) → Bool
  | [] => true
  | k :: rest => rest.all (fun k2 => (pyKeyLt k k2).isSome) && pairwiseComparable rest

/-- Total order used to model Python's sort when all comparisons are
well-typed (the cross-variant cases are arbitrary and never reached then). -/
def valLE : (ℤ ⊕ String) → (ℤ ⊕ String) → Bool
  | .inl m, .inl n => decide (m ≤ n)
  | .inr s, .inr t => decide (s ≤ t)
  | .inl _, .inr _ => true
  | .inr _, .inl _ => false

def keyLE (k1 k2 : String × (ℤ ⊕ String)) : Bool :=
  if k1.1 = k2.1 then valLE k1.2 k2.2 else decide (k1.1 < k2.1)

/-- Insert `x` after all existing entries that compare `≤ x` (keeps a stable
order, like Python's sort). -/
def insOrdered (le : α → α → Bool) (x : α) : List α → List α
  | [] => [x]
  | y :: ys => if le y x then y :: insOrdered le x ys else x :: y :: ys

/-- Stable insertion sort (model of Python's stable `sorted`). -/
def stableSort (le : α → α → Bool) (l : List α) : List α :=
  l.foldl (fun acc x => insOrdered le x acc) []

/-- `sorted(sections.keys(), key=section_sort_key)`. -/
def sortSectionNames (names : List String) : List String :=
  stableSort (fun a b => keyLE (section_sort_key a) (section_sort_key b)) names

/-! ### Node naming and coordinate formatting -/

/-- `sec_name.strip().replace(" ", "_")` -/
def sanitizeSec (s : String) : String :=
  ⟨(pyStrip s).data.map (fun c => if c == ' ' then '_' else c)⟩

/-- Embedding of `make_node_name`. -/
def make_node_name (sec_name : String) (idx : ℕ) : String :=
  "N" ++ sanitizeSec sec_name ++ "_Node_" ++ natStr idx

/-- The 8 fractional digits of `fp < 10^8`, little-endian, zero-padded. -/
def fracLE8 (fp : ℕ) : List ℕ :=
  digitsLE fp ++ List.replicate (8 - (digitsLE fp).length) 0

/-- Python `f"{v:.8f}"`: sign, integer digits, dot, 8 fractional digits
(the scaled value is rounded to an integer number of 10⁻⁸). -/
def fixed8 (v : ℚ) : List Char :=
  let n := (round (|v| * 10 ^ 8)).toNat
  (if v < 0 then ['-'] else []) ++ (natStr (n / 10 ^ 8)).data
    ++ '.' :: ((fracLE8 (n % 10 ^ 8)).map digitChar).reverse

/-- Embedding of `format_coord`. -/
def format_coord (v : ℚ) (force : Bool) : String :=
  let w := if |v| < 1 / 10 ^ 12 then 0 else v
  let t1 := pyRstrip (fixed8 w) '0'
  let t2 := pyRstrip t1 '.'
  let t3 := if t2.isEmpty then ['0'] else t2
  ⟨if force && !t3.contains '.' then t3 ++ ['.', '0'] else t3⟩

/-- Numeric value of a rendered decimal string without sign. -/
def parseNonneg (cs : List Char) : ℚ :=
  let ip := cs.takeWhile (· != '.')
  let rest := cs.dropWhile (· != '.')
  (digitsVal ip : ℚ) + (digitsVal rest.tail : ℚ) / 10 ^ rest.tail.length

/-- Numeric value of a rendered decimal string (model of Python `float()`
restricted to the shapes `format_coord` emits). -/
def parseDec (s : String) : ℚ :=
  if s.data.head? = some '-' then -(parseNonneg s.data.tail) else parseNonneg s.data

/-! ### Geometry builder (`build_section_geometries`) -/

/-- Container for one section, mirroring the Python dataclass. -/
structure SectionGeometry where
  name : String
  nodes : List (String × ℚ × ℚ × ℚ)
  segments : List (String × String × ℚ × ℚ)
  port : String × String
  deriving DecidableEq

/-- The per-section override table; empty in the source configuration. -/
def SECTION_WH : List (String × ℚ × ℚ) := []

def DEFAULT_SEG_WIDTH : ℚ := 1 / 4
def DEFAULT_SEG_HEIGHT : ℚ := 7 / 200

/-- `SECTION_WH.get(sec_name, (default_width, default_height))` -/
def sectionWH (name : String) (dw dh : ℚ) : ℚ × ℚ :=
  match SECTION_WH.find? (fun e => e.1 == name) with
  | some e => (e.2.1, e.2.2)
  | none => (dw, dh)

/-- `sections[sec_name]` (the name always comes from the dict's own keys). -/
def lookupSec (secs : List (String × List Point)) (name : String) : List Point :=
  ((secs.find? (fun e => e.1 == name)).map (fun e => e.2)).getD []

/-- Sort order of `sorted(pts, key=lambda row: row[0] or 0)`: the numeric
value of `row[0] or 0` equals the index itself. -/
def ptLE (p q : Point) : Bool := p.idx ≤ q.idx

inductive BuildErr where
  /-- Python `TypeError` raised by `sorted` on incomparable keys. -/
  | typeError
  /-- `ValueError` for a section with fewer than two points. -/
  | insufficientPoints (name : String)
  /-- `ValueError` when no segments were generated at all. -/
  | noSegments
  deriving DecidableEq

/-- Construct the `SectionGeometry` for one section (meaningful when the
section has at least two points). -/
def mkGeometry (secs : List (String × List Point)) (dw dh : ℚ) (n : String) : SectionGeometry :=
  let pts := stableSort ptLE (lookupSec secs n)
  let wh := sectionWH n dw dh
  let names := pts.map (fun p => make_node_name n p.idx)
  ⟨n, pts.map (fun p => (make_node_name n p.idx, p.x, p.y, p.z)),
    List.zipWith (fun a b => (a, b, wh.1, wh.2)) names names.tail,
    (names.headD "", names.getLastD "")⟩

/-- The per-section loop of `build_section_geometries` over the sorted
names. -/
def buildGeoms (secs : List (String × List Point)) (dw dh : ℚ) :
    List String → Except BuildErr (List SectionGeometry)
  | [] => .ok []
  | n :: rest =>
    if (stableSort ptLE (lookupSec secs n)).length < 2 then .error (.insufficientPoints n)
    else
      match buildGeoms secs dw dh rest with
      | .error e => .error e
      | .ok gs => .ok (mkGeometry secs dw dh n :: gs)

/-- Embedding of `build_section_geometries`.  Sorting the section names can
raise a `TypeError` when two keys are incomparable (int vs str); on the
comparable fragment the stable total sort coincides with Python's. -/
def build_section_geometries (secs : List (String × List Point)) (dw dh : ℚ) :
    Except BuildErr (List SectionGeometry) :=
  let names := secs.map Prod.fst
  if !pairwiseComparable (names.map section_sort_key) then .error .typeError
  else
    match buildGeoms secs dw dh (sortSectionNames names) with
    | .error e => .error e
    | .ok gs =>
      if (gs.map (fun g => g.segments.length)).sum = 0 then .error .noSegments else .ok gs

/-! ### Deck serializer (`write_fasthenry_input`) -/

/-- Embedding of `units_to_sigma`. -/
def units_to_sigma (units : String) : ℚ :=
  let u := pyToUpper units
  if u = "M" then 58000000
  else if u = "CM" then 580000
  else if u = "MM" then 58000
  else 58000

structure Summary where
  sections : ℕ
  nodes : ℕ
  segments : ℕ
  ports : ℕ
  deriving DecidableEq

/-- Python `f"{n:03d}"` for a natural number. -/
def pad3 (n : ℕ) : String :=
  let s := natStr n
  if s.data.length < 3 then ⟨List.replicate (3 - s.data.length) '0' ++ s.data⟩ else s

def nodeLine (node : String × ℚ × ℚ × ℚ) : String :=
  node.1 ++ " x=" ++ format_coord node.2.1 true ++ " y=" ++ format_coord node.2.2.1 true
    ++ " z=" ++ format_coord node.2.2.2 true

def segLine (i : ℕ) (seg : String × String × ℚ × ℚ) : String :=
  (if i = 0 then "EFHSegment" else "EFHSegment" ++ pad3 i) ++ " " ++ seg.1 ++ " " ++ seg.2.1
    ++ " w=" ++ format_coord seg.2.2.1 false ++ " h=" ++ format_coord seg.2.2.2 false

/-- Embedding of `write_fasthenry_input`: returns the deck as a list of lines
(each terminated by CRLF in the file) together with the summary counts. -/
def write_fasthenry_input (units : String) (secs : List (String × List Point))
    (dw dh : ℚ) (sigma : Option ℚ) (fmin fmax ndec : ℚ) (nhinc nwinc rh rw : ℤ) :
    Except BuildErr (List String × Summary) :=
  let u := pyToUpper units
  let sg := sigma.getD (units_to_sigma u)
  match build_section_geometries secs dw dh with
  | .error e => .error e
  | .ok geoms =>
    let allNodes := (geoms.map (fun g => g.nodes)).flatten
    let allSegments := (geoms.map (fun g => g.segments)).flatten
    let ports := geoms.map (fun g => g.port)
    let deck :=
      ["* FastHenry input file created using FreeCAD\x27s ElectroMagnetic Workbench",
       "* See http://www.freecad.org, http://www.fastfieldsolvers.com and http://epc-co.com",
       "",
       ".units " ++ pyToLower u,
       "",
       ".default sigma=" ++ format_coord sg true ++ " nhinc=" ++ intStr nhinc
         ++ " nwinc=" ++ intStr nwinc ++ " rh=" ++ intStr rh ++ " rw=" ++ intStr rw,
       "",
       "* Nodes"]
      ++ allNodes.map nodeLine
      ++ ["", "* Segments"]
      ++ allSegments.enum.map (fun e => segLine e.1 e.2)
      ++ ["", "* Ports"]
      ++ ports.map (fun p => ".external " ++ p.1 ++ " " ++ p.2)
      ++ ["",
          ".freq fmin=" ++ format_coord fmin true ++ " fmax=" ++ format_coord fmax true
            ++ " ndec=" ++ format_coord ndec true,
          "",
          ".end"]
    .ok (deck, ⟨geoms.length, allNodes.length, allSegments.length, ports.length⟩)

/-! ### Claim-side definitions (from the spec's words, for refinement claims) -/

/-- Modelled from the claim's words for C4: split on the last hyphen; integer
suffixes give `(prefix, int)`; otherwise the key is `(prefix, SUFFIX)`
(the point of divergence: the code uses the full name, not the suffix). -/
def claimSortKey (sec_name : String) : String × (ℤ ⊕ String) :=
  let name := pyStrip sec_name
  if name.data.contains '-' then
    let base := pyStrip (beforeLastHyphen name)
    let num := pyStrip (afterLastHyphen name)
    match pyInt num with
    | some k => (base, .inl k)
    | none => (base, .inr num)
  else ("", .inr name)

/-- The sort key as amended for C4: like `claimSortKey` but on a non-integer
suffix the second component is the full stripped name. -/
def amendedSortKey (sec_name : String) : String × (ℤ ⊕ String) :=
  let name := pyStrip sec_name
  if name.data.contains '-' then
    let base := pyStrip (beforeLastHyphen name)
    let num := pyStrip (afterLastHyphen name)
    match pyInt num with
    | some k => (base, .inl k)
    | none => (base, .inr name)
  else ("", .inr name)

/-! ### C1: end-to-end example -/

def c1Input : List String :=
  ["mm", "vol_res_cm=1.0",
   "Section-1, 0, 0, 0, 1", "Section-1, 10, 0, 0, 1",
   "Section-2, 0, 5, 0, 1", "Section-2, 10, 5, 0, 1"]

def c1Secs : List (String × List Point) :=
  [("Section-1", [⟨1, 0, 0, 0, 3⟩, ⟨2, 10, 0, 0, 4⟩]),
   ("Section-2", [⟨1, 0, 5, 0, 5⟩, ⟨2, 10, 5, 0, 6⟩])]

def c1Deck : List String :=
  ["* FastHenry input file created using FreeCAD\x27s ElectroMagnetic Workbench",
   "* See http://www.freecad.org, http://www.fastfieldsolvers.com and http://epc-co.com",
   "",
   ".units mm",
   "",
   ".default sigma=58000.0 nhinc=1 nwinc=1 rh=2 rw=2",
   "",
   "* Nodes",
   "NSection-1_Node_1 x=0.0 y=0.0 z=0.0",
   "NSection-1_Node_2 x=10.0 y=0.0 z=0.0",
   "NSection-2_Node_1 x=0.0 y=5.0 z=0.0",
   "NSection-2_Node_2 x=10.0 y=5.0 z=0.0",
   "",
   "* Segments",
   "EFHSegment NSection-1_Node_1 NSection-1_Node_2 w=0.25 h=0.035",
   "EFHSegment001 NSection-2_Node_1 NSection-2_Node_2 w=0.25 h=0.035",
   "",
   "* Ports",
   ".external NSection-1_Node_1 NSection-1_Node_2",
   ".external NSection-2_Node_1 NSection-2_Node_2",
   "",
   ".freq fmin=1.0 fmax=1000000000.0 ndec=1.0",
   "",
   ".end"]

/-- C1: on the six-line example input the pipeline parses units "MM" and two
sections, and serializing produces exactly the expected deck: 4 nodes,
2 segments, 2 ports, a `.units mm` directive, sections emitted in the order
Section-1 then Section-2, and a summary reporting those same counts. -/
theorem c1_end_to_end_example :
    parse_wire_sections c1Input = .ok ("MM", c1Secs) ∧
    write_fasthenry_input "MM" c1Secs DEFAULT_SEG_WIDTH DEFAULT_SEG_HEIGHT
        none 1 (10 ^ 9) 1 1 1 2 2 = .ok (c1Deck, ⟨2, 4, 2, 2⟩) ∧
    ".units mm" ∈ c1Deck ∧
    Except.map (fun gs => gs.map SectionGeometry.name)
        (build_section_geometries c1Secs DEFAULT_SEG_WIDTH DEFAULT_SEG_HEIGHT) =
      .ok ["Section-1", "Section-2"] :=
  ⟨by with_unfolding_all rfl, by with_unfolding_all rfl, by decide, by with_unfolding_all rfl⟩

/-! ### C4: the section sort key -/

/-- C4 counterexample: the claim says a non-integer suffix yields the key
`(prefix, suffix)`, but the code returns `(prefix, full name)`: at
`"Section-x"` the code key is `("Section", "Section-x")`, not
`("Section", "x")`. -/
theorem c4_counterexample :
    section_sort_key "Section-x" = ("Section", .inr "Section-x") ∧
    claimSortKey "Section-x" = ("Section", .inr "x") ∧
    section_sort_key "Section-x" ≠ claimSortKey "Section-x" :=
  ⟨by with_unfolding_all rfl, by with_unfolding_all rfl, by with_unfolding_all decide⟩

/-- C4 as amended: the processing order uses the numeric-aware key that
splits on the last hyphen, yielding `(prefix, integer)` for integer suffixes
and `(prefix, full stripped name)` otherwise (names without a hyphen sort
under an empty prefix group by full name); sorting
`["Section-10", "Section-2", "Section-1"]` yields Section-1, Section-2,
Section-10. -/
theorem c4_amended_sort_key :
    (∀ s : String, section_sort_key s = amendedSortKey s) ∧
    sortSectionNames ["Section-10", "Section-2", "Section-1"] =
      ["Section-1", "Section-2", "Section-10"] :=
  ⟨fun _ => rfl, by with_unfolding_all rfl⟩

/-! ### C6: conductivity lookup -/

/-- C6 counterexample: the step from centimeters to millimeters scales by a
factor of 10, not 1000 as the claim's "three orders of magnitude per unit
step" asserts. -/
theorem c6_counterexample :
    units_to_sigma "CM" ≠ 1000 * units_to_sigma "MM" := by with_unfolding_all decide

/-- C6 as amended: the lookup scales by 100 from M to CM and by 10 from CM to
MM (hence 1000 overall from M to MM, as the claim's "in particular" notes);
any unrecognized units string resolves to the millimeter entry; and when no
sigma is supplied the serializer uses exactly this lookup on the units. -/
theorem c6_amended_sigma_lookup :
    units_to_sigma "M" = 100 * units_to_sigma "CM" ∧
    units_to_sigma "CM" = 10 * units_to_sigma "MM" ∧
    units_to_sigma "M" = 1000 * units_to_sigma "MM" ∧
    units_to_sigma "m" = 1000 * units_to_sigma "mm" ∧
    (∀ s : String, pyToUpper s ≠ "M" → pyToUpper s ≠ "CM" → pyToUpper s ≠ "MM" →
      units_to_sigma s = units_to_sigma "MM") ∧
    (∀ units secs dw dh fmin fmax ndec a b c d,
      write_fasthenry_input units secs dw dh none fmin fmax ndec a b c d =
        write_fasthenry_input units secs dw dh (some (units_to_sigma (pyToUpper units)))
          fmin fmax ndec a b c d) := by
  have eM : units_to_sigma "M" = 58000000 := by with_unfolding_all rfl
  have eCM : units_to_sigma "CM" = 580000 := by with_unfolding_all rfl
  have eMM : units_to_sigma "MM" = 58000 := by with_unfolding_all rfl
  have eml : units_to_sigma "m" = 58000000 := by with_unfolding_all rfl
  have emml : units_to_sigma "mm" = 58000 := by with_unfolding_all rfl
  refine ⟨?_, ?_, ?_, ?_, ?_, ?_⟩
  · rw [eM, eCM]; norm_num
  · rw [eCM, eMM]; norm_num
  · rw [eM, eMM]; norm_num
  · rw [eml, emml]; norm_num
  · intro s h1 h2 h3
    simp only [units_to_sigma, if_neg h1, if_neg h2, if_neg h3]
    with_unfolding_all rfl
  · intro units secs dw dh fmin fmax ndec a b c d
    simp only [write_fasthenry_input, Option.getD_none, Option.getD_some]

/-- Witness for C6: a unit string that is not M/CM/MM resolves to the
millimeter entry. -/
theorem c6_amended_sigma_lookup_witness :
    units_to_sigma "inch" = units_to_sigma "MM" :=
  c6_amended_sigma_lookup.2.2.2.2.1 "inch" (by with_unfolding_all decide)
    (by with_unfolding_all decide) (by with_unfolding_all decide)

/-! ### C10: sorting parser-producible names can raise a TypeError -/

def c10Input : List String :=
  ["Section-2, 0, 0, 0, 1", "Section-2, 10, 0, 0, 1",
   "Section-x, 0, 5, 0, 1", "Section-x, 10, 5, 0, 1"]

def c10Secs : List (String × List Point) :=
  [("Section-2", [⟨1, 0, 0, 0, 1⟩, ⟨2, 10, 0, 0, 2⟩]),
   ("Section-x", [⟨1, 0, 5, 0, 3⟩, ⟨2, 10, 5, 0, 4⟩])]

/-- C10 is violated by the code: the parser accepts the sections
`Section-2` and `Section-x`, whose sort keys `("Section", 2)` and
`("Section", "Section-x")` are incomparable in either direction (Python
raises `TypeError` on `int` vs `str`), so geometry building aborts during
sorting rather than never failing. -/
theorem c10_sort_key_type_error :
    parse_wire_sections c10Input = .ok ("MM", c10Secs) ∧
    pyKeyLt (section_sort_key "Section-2") (section_sort_key "Section-x") = none ∧
    pyKeyLt (section_sort_key "Section-x") (section_sort_key "Section-2") = none ∧
    build_section_geometries c10Secs DEFAULT_SEG_WIDTH DEFAULT_SEG_HEIGHT =
      .error .typeError :=
  ⟨by with_unfolding_all rfl, by with_unfolding_all rfl, by with_unfolding_all rfl,
    by with_unfolding_all rfl⟩

/-! ### C3: node-name injectivity -/

theorem takeWhile_append_of_all (p : α → Bool) :
    ∀ (l1 l2 : List α), (∀ a ∈ l1, p a = true) →
      (l1 ++ l2).takeWhile p = l1 ++ l2.takeWhile p
  | [], _, _ => rfl
  | a :: l1, l2, h => by
    have ha : p a = true := h a (List.mem_cons_self a l1)
    simp only [List.cons_append, List.takeWhile_cons, ha, if_true]
    rw [takeWhile_append_of_all p l1 l2 (fun b hb => h b (List.mem_cons_of_mem a hb))]

theorem dropWhile_append_of_all (p : α → Bool) :
    ∀ (l1 l2 : List α), (∀ a ∈ l1, p a = true) →
      (l1 ++ l2).dropWhile p = l2.dropWhile p
  | [], _, _ => rfl
  | a :: l1, l2, h => by
    have ha : p a = true := h a (List.mem_cons_self a l1)
    simp only [List.cons_append, List.dropWhile_cons, ha, if_true]
    exact dropWhile_append_of_all p l1 l2 (fun b hb => h b (List.mem_cons_of_mem a hb))

/-- Splitting a string of the shape `s ++ "_Node_" ++ digits` is unambiguous:
the final digit run and the leading part are both determined. -/
theorem append_node_digits_inj {s1 s2 d1 d2 : List Char}
    (hd1 : ∀ c ∈ d1, c.isDigit = true) (hd2 : ∀ c ∈ d2, c.isDigit = true)
    (h : s1 ++ '_' :: 'N' :: 'o' :: 'd' :: 'e' :: '_' :: d1 =
         s2 ++ '_' :: 'N' :: 'o' :: 'd' :: 'e' :: '_' :: d2) :
    s1 = s2 ∧ d1 = d2 := by
  have hrev := congrArg List.reverse h
  simp only [List.reverse_append, List.reverse_cons, List.append_assoc, List.nil_append,
    List.singleton_append] at hrev
  have key : ∀ (d s : List Char), (∀ c ∈ d, c.isDigit = true) →
      (d.reverse ++ '_' :: 'e' :: 'd' :: 'o' :: 'N' :: '_' :: s.reverse).takeWhile
        (fun c => c.isDigit) = d.reverse := by
    intro d s hd
    rw [takeWhile_append_of_all (fun c => c.isDigit) d.reverse _
      (fun c hc => hd c (List.mem_reverse.mp hc))]
    simp [List.takeWhile_cons]
  have hrev2 : d1.reverse ++ '_' :: 'e' :: 'd' :: 'o' :: 'N' :: '_' :: s1.reverse =
      d2.reverse ++ '_' :: 'e' :: 'd' :: 'o' :: 'N' :: '_' :: s2.reverse := by
    simpa using hrev
  have hd : d1.reverse = d2.reverse := by
    have := congrArg (List.takeWhile (fun c => c.isDigit)) hrev2
    rwa [key d1 s1 hd1, key d2 s2 hd2] at this
  have hdeq : d1 = d2 := by
    have := congrArg List.reverse hd
    simpa using this
  subst hdeq
  refine ⟨?_, rfl⟩
  rw [hd] at hrev2
  have hmarked := List.append_cancel_left hrev2
  have hs : s1.reverse = s2.reverse := by
    injection hmarked with _ hmarked
    injection hmarked with _ hmarked
    injection hmarked with _ hmarked
    injection hmarked with _ hmarked
    injection hmarked with _ hmarked
    injection hmarked with _ hmarked
  have hss := congrArg List.reverse hs
  simpa using hss

theorem data_make_node_name (s : String) (i : ℕ) :
    (make_node_name s i).data =
      'N' :: ((sanitizeSec s).data ++ '_' :: 'N' :: 'o' :: 'd' :: 'e' :: '_' :: (natStr i).data) := by
  simp only [make_node_name, String.data_append]
  simp [List.append_assoc]

/-- C3: node naming is injective.  If the sanitized section names do not
collide, then `make_node_name` is injective on (section name, point index)
pairs: two names agree exactly when both the section and the index agree
(hence all node names across a document with non-colliding section names
are pairwise distinct). -/
theorem c3_node_name_injective (s1 s2 : String) (i1 i2 : ℕ)
    (hnc : sanitizeSec s1 = sanitizeSec s2 → s1 = s2) :
    make_node_name s1 i1 = make_node_name s2 i2 ↔ (s1 = s2 ∧ i1 = i2) := by
  constructor
  · intro h
    have hdata := congrArg String.data h
    rw [data_make_node_name, data_make_node_name] at hdata
    have htail : (sanitizeSec s1).data ++ '_' :: 'N' :: 'o' :: 'd' :: 'e' :: '_' :: (natStr i1).data =
        (sanitizeSec s2).data ++ '_' :: 'N' :: 'o' :: 'd' :: 'e' :: '_' :: (natStr i2).data := by
      injection hdata
    have hsplit := append_node_digits_inj (natStr_all_digit i1) (natStr_all_digit i2) htail
    exact ⟨hnc (String.ext hsplit.1), natStr_injective (String.ext hsplit.2)⟩
  · rintro ⟨rfl, rfl⟩; rfl

/-- Witness for C3 at concrete sections and indices. -/
theorem c3_node_name_injective_witness :
    (make_node_name "Section-1" 1 = make_node_name "Section-2" 1 ↔
      ("Section-1" = "Section-2" ∧ 1 = 1)) :=
  c3_node_name_injective "Section-1" "Section-2" 1 1 (by decide)

/-! ### Lemmas about the stable sort -/

theorem insOrdered_length (le : α → α → Bool) (x : α) :
    ∀ l : List α, (insOrdered le x l).length = l.length + 1
  | [] => rfl
  | y :: ys => by
    simp only [insOrdered]
    by_cases h : le y x = true
    · simp [h, insOrdered_length le x ys]
    · simp [h]

theorem stableSort_length (le : α → α → Bool) (l : List α) :
    (stableSort le l).length = l.length := by
  suffices h : ∀ (l : List α) (acc : List α),
      (l.foldl (fun acc x => insOrdered le x acc) acc).length = acc.length + l.length by
    simpa using h l []
  intro l
  induction l with
  | nil => intro acc; simp
  | cons x xs ih =>
    intro acc
    simp only [List.foldl_cons]
    rw [ih (insOrdered le x acc), insOrdered_length]
    simp only [List.length_cons]
    omega

theorem mem_insOrdered (le : α → α → Bool) (x a : α) :
    ∀ l : List α, a ∈ insOrdered le x l ↔ a = x ∨ a ∈ l
  | [] => by simp [insOrdered]
  | y :: ys => by
    simp only [insOrdered]
    cases hle : le y x with
    | true => simp only [if_true, List.mem_cons, mem_insOrdered le x a ys]; tauto
    | false => simp only [Bool.false_eq_true, if_false, List.mem_cons]

theorem mem_stableSort (le : α → α → Bool) (l : List α) (a : α) :
    a ∈ stableSort le l ↔ a ∈ l := by
  suffices h : ∀ (l : List α) (acc : List α),
      (a ∈ l.foldl (fun acc x => insOrdered le x acc) acc) ↔ a ∈ acc ∨ a ∈ l by
    simpa using h l []
  intro l
  induction l with
  | nil => intro acc; simp
  | cons x xs ih =>
    intro acc
    simp only [List.foldl_cons, ih (insOrdered le x acc), mem_insOrdered, List.mem_cons]
    tauto

theorem insOrdered_of_all (le : α → α → Bool) (x : α) :
    ∀ l : List α, (∀ y ∈ l, le y x = true) → insOrdered le x l = l ++ [x]
  | [], _ => rfl
  | y :: ys, h => by
    simp only [insOrdered, h y (List.mem_cons_self y ys), if_true, List.cons_append]
    rw [insOrdered_of_all le x ys (fun z hz => h z (List.mem_cons_of_mem y hz))]

theorem stableSort_of_pairwise (le : α → α → Bool) (l : List α)
    (h : l.Pairwise (fun a b => le a b = true)) : stableSort le l = l := by
  suffices key : ∀ (l : List α) (acc : List α), l.Pairwise (fun a b => le a b = true) →
      (∀ y ∈ acc, ∀ z ∈ l, le y z = true) →
      l.foldl (fun acc x => insOrdered le x acc) acc = acc ++ l by
    simpa using key l [] h (by simp)
  intro l
  induction l with
  | nil => intro acc _ _; simp
  | cons x xs ih =>
    intro acc hp hacc
    simp only [List.foldl_cons]
    rw [insOrdered_of_all le x acc (fun y hy => hacc y hy x (List.mem_cons_self x xs))]
    rw [ih (acc ++ [x]) (List.Pairwise.of_cons hp) ?_]
    · simp
    · intro y hy z hz
      rcases List.mem_append.mp hy with hya | hyx
      · exact hacc y hya z (List.mem_cons_of_mem x hz)
      · rw [List.mem_singleton.mp hyx]
        exact (List.pairwise_cons.mp hp).1 z hz

/-! ### Lemmas about the parser's accumulator -/

theorem addPoint_names (n : String) (p : RawPt) :
    ∀ acc : List (String × List RawPt),
      (addPoint acc n p).map Prod.fst = acc.map Prod.fst ∨
      ((addPoint acc n p).map Prod.fst = acc.map Prod.fst ++ [n] ∧ n ∉ acc.map Prod.fst)
  | [] => by simp [addPoint]
  | (m, qs) :: rest => by
    by_cases h : m = n
    · left; simp [addPoint, h]
    · rcases addPoint_names n p rest with ih | ⟨ih, hnm⟩
      · left; simp [addPoint, h, ih]
      · right
        constructor
        · simp [addPoint, h, ih]
        · simp only [List.map_cons, List.mem_cons]
          rintro (rfl | hmem)
          · exact h rfl
          · exact hnm hmem

theorem addPoint_names_nodup {acc : List (String × List RawPt)} {n : String} {p : RawPt}
    (h : (acc.map Prod.fst).Nodup) : ((addPoint acc n p).map Prod.fst).Nodup := by
  rcases addPoint_names n p acc with heq | ⟨heq, hnm⟩
  · rwa [heq]
  · rw [heq, List.nodup_append]
    refine ⟨h, List.nodup_singleton n, ?_⟩
    intro a ha hb
    rw [List.mem_singleton] at hb
    subst hb
    exact hnm ha

theorem collectPts_names_nodup :
    ∀ (rest : List String) (i start : ℕ) (acc : List (String × List RawPt)),
      (acc.map Prod.fst).Nodup → ((collectPts rest i start acc).map Prod.fst).Nodup
  | [], _, _, _, h => h
  | l :: rest, i, start, acc, h => by
    simp only [collectPts]
    by_cases hi : i < start
    · simp only [hi, if_true]
      exact collectPts_names_nodup rest (i + 1) start acc h
    · simp only [hi, if_false]
      match dataOf l with
      | none => exact collectPts_names_nodup rest (i + 1) start acc h
      | some (sec, x, y, z) =>
        exact collectPts_names_nodup rest (i + 1) start _ (addPoint_names_nodup h)

theorem assignIdx_names (secs : List (String × List RawPt)) :
    (assignIdx secs).map Prod.fst = secs.map Prod.fst := by
  simp [assignIdx, List.map_map]

theorem parse_names_nodup {raw : List String} {u : String} {secs : List (String × List Point)}
    (h : parse_wire_sections raw = .ok (u, secs)) : (secs.map Prod.fst).Nodup := by
  unfold parse_wire_sections at h
  by_cases he : (cleanLines raw).isEmpty
  · simp [he] at h
  · simp only [he, Bool.false_eq_true, if_false, Except.ok.injEq, Prod.mk.injEq] at h
    rcases h with ⟨_, hsecs⟩
    rw [← hsecs, assignIdx_names]
    exact collectPts_names_nodup _ 0 _ [] (by simp)

theorem lookupSec_eq :
    ∀ {secs : List (String × List Point)} {n : String} {pts : List Point},
      ((secs.map Prod.fst).Nodup) → ((n, pts) ∈ secs) → lookupSec secs n = pts := by
  intro secs
  induction secs with
  | nil => intro n pts _ hm; cases hm
  | cons e rest ih =>
    intro n pts hnd hm
    rcases List.mem_cons.mp hm with heq | hmem
    · subst heq
      simp [lookupSec, List.find?]
    · have hne : e.1 ≠ n := by
        intro hcontra
        have : n ∈ rest.map Prod.fst := List.mem_map.mpr ⟨(n, pts), hmem, rfl⟩
        rw [List.map_cons, List.nodup_cons] at hnd
        exact hnd.1 (hcontra ▸ this)
      have hb : (e.1 == n) = false := beq_eq_false_iff_ne.mpr hne
      have hrec := ih (by rw [List.map_cons, List.nodup_cons] at hnd; exact hnd.2) hmem
      simp only [lookupSec, List.find?, hb] at hrec ⊢
      exact hrec

theorem mem_enumFrom_le : ∀ (m : ℕ) (l : List α) (b : ℕ × α), b ∈ List.enumFrom m l → m ≤ b.1
  | _, [], _, h => by cases h
  | m, x :: xs, b, h => by
    simp only [List.enumFrom] at h
    rcases List.mem_cons.mp h with rfl | h2
    · exact le_rfl
    · have := mem_enumFrom_le (m + 1) xs b h2
      omega

theorem enumFrom_pairwise : ∀ (n : ℕ) (l : List α),
    (List.enumFrom n l).Pairwise (fun a b => a.1 < b.1)
  | _, [] => List.Pairwise.nil
  | n, x :: xs => by
    simp only [List.enumFrom]
    exact List.Pairwise.cons
      (fun b hb => lt_of_lt_of_le (Nat.lt_succ_self n) (mem_enumFrom_le (n + 1) xs b hb))
      (enumFrom_pairwise (n + 1) xs)

/-- Per-section point lists produced by `assignIdx` are sorted by index. -/
theorem assignIdx_pairwise (secs : List (String × List RawPt)) :
    ∀ e ∈ assignIdx secs, e.2.Pairwise (fun p q => ptLE p q = true) := by
  intro e he
  simp only [assignIdx, List.mem_map] at he
  rcases he with ⟨⟨n, ps⟩, _, rfl⟩
  simp only
  rw [List.pairwise_map]
  have henum : ps.enum.Pairwise (fun a b => a.1 < b.1) := enumFrom_pairwise 0 ps
  exact henum.imp (by intro a b hab; simp only [ptLE]; simp; omega)

/-! ### Lemmas about the geometry builder -/

theorem build_eq_of_comparable {secs : List (String × List Point)} {dw dh : ℚ}
    (hcomp : pairwiseComparable ((secs.map Prod.fst).map section_sort_key) = true) :
    build_section_geometries secs dw dh =
      match buildGeoms secs dw dh (sortSectionNames (secs.map Prod.fst)) with
      | .error e => .error e
      | .ok gs =>
        if (gs.map (fun g => g.segments.length)).sum = 0 then .error .noSegments
        else .ok gs := by
  unfold build_section_geometries
  simp only [hcomp, Bool.not_true, Bool.false_eq_true, if_false]

theorem buildGeoms_ok (secs : List (String × List Point)) (dw dh : ℚ) :
    ∀ names : List String, (∀ n ∈ names, 2 ≤ (lookupSec secs n).length) →
      buildGeoms secs dw dh names = .ok (names.map (mkGeometry secs dw dh))
  | [], _ => rfl
  | n :: rest, h => by
    have hn := h n (List.mem_cons_self n rest)
    have hlt : ¬((stableSort ptLE (lookupSec secs n)).length < 2) := by
      rw [stableSort_length]; omega
    simp only [buildGeoms, if_neg hlt]
    rw [buildGeoms_ok secs dw dh rest (fun m hm => h m (List.mem_cons_of_mem n hm))]
    rfl

theorem buildGeoms_insufficient (secs : List (String × List Point)) (dw dh : ℚ) :
    ∀ names : List String, (∃ n ∈ names, (lookupSec secs n).length < 2) →
      ∃ n, n ∈ names ∧ (lookupSec secs n).length < 2 ∧
        buildGeoms secs dw dh names = .error (.insufficientPoints n)
  | [], h => by rcases h with ⟨n, hn, _⟩; cases hn
  | n0 :: rest, h => by
    by_cases h0 : (lookupSec secs n0).length < 2
    · refine ⟨n0, List.mem_cons_self n0 rest, h0, ?_⟩
      have hlt : (stableSort ptLE (lookupSec secs n0)).length < 2 := by
        rw [stableSort_length]; exact h0
      simp only [buildGeoms, if_pos hlt]
    · have hrest : ∃ n ∈ rest, (lookupSec secs n).length < 2 := by
        rcases h with ⟨n, hn, hlen⟩
        rcases List.mem_cons.mp hn with rfl | hmem
        · exact absurd hlen h0
        · exact ⟨n, hmem, hlen⟩
      rcases buildGeoms_insufficient secs dw dh rest hrest with ⟨n, hmem, hlen, herr⟩
      refine ⟨n, List.mem_cons_of_mem n0 hmem, hlen, ?_⟩
      have hlt : ¬((stableSort ptLE (lookupSec secs n0)).length < 2) := by
        rw [stableSort_length]; exact h0
      simp only [buildGeoms, if_neg hlt, herr]

theorem buildGeoms_error_shape (secs : List (String × List Point)) (dw dh : ℚ) :
    ∀ (names : List String) (e : BuildErr),
      buildGeoms secs dw dh names = .error e → ∃ n, e = .insufficientPoints n
  | [], e, h => by cases h
  | n :: rest, e, h => by
    by_cases hlt : (stableSort ptLE (lookupSec secs n)).length < 2
    · simp only [buildGeoms, if_pos hlt, Except.error.injEq] at h
      exact ⟨n, h.symm⟩
    · simp only [buildGeoms, if_neg hlt] at h
      cases hrec : buildGeoms secs dw dh rest with
      | error e2 =>
        rw [hrec] at h
        simp only [Except.error.injEq] at h
        subst h
        exact buildGeoms_error_shape secs dw dh rest _ hrec
      | ok gs =>
        rw [hrec] at h
        cases h

theorem mkGeometry_segments_length (secs : List (String × List Point)) (dw dh : ℚ) (n : String) :
    (mkGeometry secs dw dh n).segments.length = (lookupSec secs n).length - 1 := by
  simp only [mkGeometry, List.length_zipWith, List.length_map, List.length_tail,
    stableSort_length]
  omega

/-! ### C8: insufficient-points policy and the NoSegments condition -/

/-- C8: within one build the insufficient-points policy is uniformly
"raise": whenever some section has fewer than 2 points (and the sort keys
are comparable so that sorting completes), the build fails with an
insufficient-points error naming such a section — no section is silently
skipped; and the build fails with NoSegments exactly when the sections
mapping is empty (the only way the total segment count after processing all
sections can be zero). -/
theorem c8_insufficient_points_policy (secs : List (String × List Point)) (dw dh : ℚ)
    (hnodup : (secs.map Prod.fst).Nodup)
    (hcomp : pairwiseComparable ((secs.map Prod.fst).map section_sort_key) = true) :
    ((∃ e ∈ secs, e.2.length < 2) →
      ∃ n pts, (n, pts) ∈ secs ∧ pts.length < 2 ∧
        build_section_geometries secs dw dh = .error (.insufficientPoints n)) ∧
    (build_section_geometries secs dw dh = .error .noSegments ↔ secs = []) := by
  have hmemS : ∀ n, n ∈ sortSectionNames (secs.map Prod.fst) ↔ n ∈ secs.map Prod.fst :=
    fun n => mem_stableSort _ _ n
  have hlenS : (sortSectionNames (secs.map Prod.fst)).length = secs.length := by
    rw [sortSectionNames, stableSort_length, List.length_map]
  have hinsuff : (∃ e ∈ secs, e.2.length < 2) →
      ∃ n pts, (n, pts) ∈ secs ∧ pts.length < 2 ∧
        build_section_geometries secs dw dh = .error (.insufficientPoints n) := by
    rintro ⟨e, hmem, hlen⟩
    have hn : e.1 ∈ sortSectionNames (secs.map Prod.fst) :=
      (hmemS e.1).mpr (List.mem_map.mpr ⟨e, hmem, rfl⟩)
    have hlook : lookupSec secs e.1 = e.2 := lookupSec_eq hnodup (by simpa using hmem)
    have hex : ∃ n ∈ sortSectionNames (secs.map Prod.fst), (lookupSec secs n).length < 2 :=
      ⟨e.1, hn, by rw [hlook]; exact hlen⟩
    rcases buildGeoms_insufficient secs dw dh _ hex with ⟨n, hmem2, hlen2, herr⟩
    have hn2 : n ∈ secs.map Prod.fst := (hmemS n).mp hmem2
    rcases List.mem_map.mp hn2 with ⟨e2, hmem3, rfl⟩
    have hlook2 : lookupSec secs e2.1 = e2.2 := lookupSec_eq hnodup (by simpa using hmem3)
    refine ⟨e2.1, e2.2, by simpa using hmem3, by rw [hlook2] at hlen2; exact hlen2, ?_⟩
    rw [build_eq_of_comparable hcomp, herr]
  refine ⟨hinsuff, ?_, ?_⟩
  · intro hns
    by_cases hex : ∃ e ∈ secs, e.2.length < 2
    · rcases hinsuff hex with ⟨n, pts, _, _, herr⟩
      rw [herr] at hns
      cases hns
    · push_neg at hex
      by_contra hne
      have hsecne : secs ≠ [] := hne
      have hall : ∀ n ∈ sortSectionNames (secs.map Prod.fst), 2 ≤ (lookupSec secs n).length := by
        intro n hn
        rcases List.mem_map.mp ((hmemS n).mp hn) with ⟨e2, hmem3, rfl⟩
        rw [lookupSec_eq hnodup (by simpa using hmem3)]
        exact hex e2 hmem3
      have hok := buildGeoms_ok secs dw dh _ hall
      by_cases hsum : (((sortSectionNames (secs.map Prod.fst)).map
          (mkGeometry secs dw dh)).map (fun g => g.segments.length)).sum = 0
      · rcases List.exists_mem_of_ne_nil secs hsecne with ⟨e0, hmem0⟩
        have hn0 : e0.1 ∈ sortSectionNames (secs.map Prod.fst) :=
          (hmemS e0.1).mpr (List.mem_map.mpr ⟨e0, hmem0, rfl⟩)
        have hz := (List.sum_eq_zero_iff.mp hsum)
          ((mkGeometry secs dw dh e0.1).segments.length)
          (List.mem_map.mpr ⟨mkGeometry secs dw dh e0.1,
            List.mem_map.mpr ⟨e0.1, hn0, rfl⟩, rfl⟩)
        rw [mkGeometry_segments_length, lookupSec_eq hnodup (by simpa using hmem0)] at hz
        have := hex e0 hmem0
        omega
      · have hbuild : build_section_geometries secs dw dh =
            .ok ((sortSectionNames (secs.map Prod.fst)).map (mkGeometry secs dw dh)) := by
          rw [build_eq_of_comparable hcomp, hok]
          exact if_neg hsum
        rw [hbuild] at hns
        cases hns
  · intro hseq
    subst hseq
    rfl

/-- Witness for C8: a single 1-point section triggers the raise policy, and
an empty mapping (and only it) triggers NoSegments. -/
theorem c8_insufficient_points_policy_witness :
    (∃ n pts, (n, pts) ∈ [("Section-1", [(⟨1, 0, 0, 0, 1⟩ : Point)])] ∧ pts.length < 2 ∧
      build_section_geometries [("Section-1", [⟨1, 0, 0, 0, 1⟩])] 1 1 =
        .error (.insufficientPoints n)) ∧
    build_section_geometries [] 1 1 = .error .noSegments := by
  constructor
  · exact (c8_insufficient_points_policy [("Section-1", [⟨1, 0, 0, 0, 1⟩])] 1 1
      (by decide) (by with_unfolding_all decide)).1
      ⟨("Section-1", [⟨1, 0, 0, 0, 1⟩]), by decide, by decide⟩
  · exact (c8_insufficient_points_policy [] 1 1 (by decide) (by decide)).2.mpr rfl

/-! ### C2: ports, segments and chain topology per section -/

theorem parse_sections_shape {raw : List String} {u : String}
    {secs : List (String × List Point)}
    (h : parse_wire_sections raw = .ok (u, secs)) :
    ∃ X, secs = assignIdx X := by
  unfold parse_wire_sections at h
  by_cases he : (cleanLines raw).isEmpty
  · simp [he] at h
  · simp only [he, Bool.false_eq_true, if_false, Except.ok.injEq, Prod.mk.injEq] at h
    exact ⟨_, h.2.symm⟩

theorem tail_map (g : α → β) : ∀ l : List α, (l.map g).tail = l.tail.map g
  | [] => rfl
  | _ :: _ => rfl

theorem zipWith_map_pairs (f : β → β → γ) (g : α → β) :
    ∀ l : List α,
      List.zipWith f (l.map g) (l.map g).tail =
        List.zipWith (fun a b => f (g a) (g b)) l l.tail
  | [] => rfl
  | [_] => rfl
  | x :: y :: rest => by
    simp only [List.map_cons, List.tail_cons, List.zipWith_cons_cons]
    have := zipWith_map_pairs f g (y :: rest)
    simp only [List.map_cons, List.tail_cons] at this
    rw [this]

theorem mkGeometry_spec {secs : List (String × List Point)} {dw dh : ℚ} {n : String}
    {pts : List Point} (hlook : lookupSec secs n = pts)
    (hsorted : stableSort ptLE pts = pts) :
    mkGeometry secs dw dh n =
      ⟨n, pts.map (fun p => (make_node_name n p.idx, p.x, p.y, p.z)),
        List.zipWith (fun a b => (a, b, dw, dh))
          (pts.map (fun p => make_node_name n p.idx))
          ((pts.map (fun p => make_node_name n p.idx)).tail),
        ((pts.map (fun p => make_node_name n p.idx)).headD "",
         (pts.map (fun p => make_node_name n p.idx)).getLastD "")⟩ := by
  unfold mkGeometry
  rw [hlook, hsorted]
  rfl

/-- C2 as amended: for every nonempty parsed sections mapping whose section
names have pairwise comparable sort keys and in which each section has at
least 2 points, geometry building succeeds; the number of ports equals the
number of sections; each section contributes exactly (point count − 1)
segments chaining consecutive points; and each section's single port
connects the section's first and last node. -/
theorem c2_amended (raw : List String) (u : String) (secs : List (String × List Point))
    (dw dh : ℚ)
    (hp : parse_wire_sections raw = .ok (u, secs))
    (hne : secs ≠ [])
    (hcomp : pairwiseComparable ((secs.map Prod.fst).map section_sort_key) = true)
    (hpts : ∀ e ∈ secs, 2 ≤ e.2.length) :
    ∃ gs, build_section_geometries secs dw dh = .ok gs ∧
      gs.length = secs.length ∧
      (gs.map (fun g => g.port)).length = secs.length ∧
      (∀ e ∈ secs, ∃ g ∈ gs, g.name = e.1 ∧
        g.nodes = e.2.map (fun p => (make_node_name e.1 p.idx, p.x, p.y, p.z)) ∧
        g.segments.length = e.2.length - 1 ∧
        g.segments = List.zipWith (fun a b => (a.1, b.1, dw, dh)) g.nodes g.nodes.tail ∧
        g.port = ((g.nodes.map Prod.fst).headD "", (g.nodes.map Prod.fst).getLastD "")) := by
  have hnodup := parse_names_nodup hp
  have hpair : ∀ e ∈ secs, e.2.Pairwise (fun p q => ptLE p q = true) := by
    rcases parse_sections_shape hp with ⟨X, hX⟩
    rw [hX]
    exact assignIdx_pairwise X
  have hmemS : ∀ n, n ∈ sortSectionNames (secs.map Prod.fst) ↔ n ∈ secs.map Prod.fst :=
    fun n => mem_stableSort _ _ n
  have hlenS : (sortSectionNames (secs.map Prod.fst)).length = secs.length := by
    rw [sortSectionNames, stableSort_length, List.length_map]
  have hall : ∀ n ∈ sortSectionNames (secs.map Prod.fst), 2 ≤ (lookupSec secs n).length := by
    intro n hn
    rcases List.mem_map.mp ((hmemS n).mp hn) with ⟨e2, hmem3, rfl⟩
    rw [lookupSec_eq hnodup (by simpa using hmem3)]
    exact hpts e2 hmem3
  have hok := buildGeoms_ok secs dw dh _ hall
  have hsum : ¬((((sortSectionNames (secs.map Prod.fst)).map
      (mkGeometry secs dw dh)).map (fun g => g.segments.length)).sum = 0) := by
    intro hsum
    rcases List.exists_mem_of_ne_nil secs hne with ⟨e0, hmem0⟩
    have hn0 : e0.1 ∈ sortSectionNames (secs.map Prod.fst) :=
      (hmemS e0.1).mpr (List.mem_map.mpr ⟨e0, hmem0, rfl⟩)
    have hz := (List.sum_eq_zero_iff.mp hsum)
      ((mkGeometry secs dw dh e0.1).segments.length)
      (List.mem_map.mpr ⟨mkGeometry secs dw dh e0.1,
        List.mem_map.mpr ⟨e0.1, hn0, rfl⟩, rfl⟩)
    rw [mkGeometry_segments_length, lookupSec_eq hnodup (by simpa using hmem0)] at hz
    have := hpts e0 hmem0
    omega
  have hbuild : build_section_geometries secs dw dh =
      .ok ((sortSectionNames (secs.map Prod.fst)).map (mkGeometry secs dw dh)) := by
    rw [build_eq_of_comparable hcomp, hok]
    exact if_neg hsum
  refine ⟨_, hbuild, by rw [List.length_map, hlenS], by rw [List.length_map, List.length_map, hlenS], ?_⟩
  intro e hmem
  have hn : e.1 ∈ sortSectionNames (secs.map Prod.fst) :=
    (hmemS e.1).mpr (List.mem_map.mpr ⟨e, hmem, rfl⟩)
  have hlook : lookupSec secs e.1 = e.2 := lookupSec_eq hnodup (by simpa using hmem)
  have hsorted : stableSort ptLE e.2 = e.2 := stableSort_of_pairwise ptLE e.2 (hpair e hmem)
  refine ⟨mkGeometry secs dw dh e.1, List.mem_map.mpr ⟨e.1, hn, rfl⟩, ?_⟩
  rw [mkGeometry_spec hlook hsorted]
  dsimp only
  refine ⟨rfl, rfl, ?_, ?_, ?_⟩
  · simp only [List.length_zipWith, List.length_map, List.length_tail]
    omega
  · rw [zipWith_map_pairs (fun a b => (a, b, dw, dh))
      (fun p : Point => make_node_name e.1 p.idx) e.2]
    rw [zipWith_map_pairs (fun a b => (a.1, b.1, dw, dh))
      (fun p : Point => (make_node_name e.1 p.idx, p.x, p.y, p.z)) e.2]
  · simp only [List.map_map]
    rfl

def c2badInput : List String :=
  ["Section-5, 0, 0, 0, 1", "Section-5, 1, 0, 0, 1",
   "Section-y, 0, 1, 0, 1", "Section-y, 1, 1, 0, 1"]

def c2badSecs : List (String × List Point) :=
  [("Section-5", [⟨1, 0, 0, 0, 1⟩, ⟨2, 1, 0, 0, 2⟩]),
   ("Section-y", [⟨1, 0, 1, 0, 3⟩, ⟨2, 1, 1, 0, 4⟩])]

/-- C2 counterexample: a parsed sections mapping in which every section has
two points, yet geometry building does not succeed — the sort keys
`("Section", 5)` and `("Section", "Section-y")` are incomparable and the
build aborts with a TypeError, refuting the claim as stated. -/
theorem c2_counterexample :
    parse_wire_sections c2badInput = .ok ("MM", c2badSecs) ∧
    (∀ e ∈ c2badSecs, 2 ≤ e.2.length) ∧
    build_section_geometries c2badSecs DEFAULT_SEG_WIDTH DEFAULT_SEG_HEIGHT =
      .error .typeError :=
  ⟨by with_unfolding_all rfl, by with_unfolding_all decide, by with_unfolding_all rfl⟩

/-- Witness for C2 at a concrete parsed two-point section. -/
theorem c2_amended_witness :
    ∃ gs, build_section_geometries [("Section-7", [⟨1, 0, 0, 0, 1⟩, ⟨2, 1, 0, 0, 2⟩])] 1 1 =
        .ok gs ∧ gs.length = 1 := by
  rcases c2_amended ["Section-7, 0, 0, 0, 1", "Section-7, 1, 0, 0, 1"] "MM"
      [("Section-7", [⟨1, 0, 0, 0, 1⟩, ⟨2, 1, 0, 0, 2⟩])] 1 1
      (by with_unfolding_all rfl) (by decide) (by with_unfolding_all decide)
      (by decide) with ⟨gs, hb, hlen, _⟩
  exact ⟨gs, hb, hlen⟩

/-! ### C5: units token detection and line skipping -/

/-- Units resolution as the amended claim describes it: "MM" for a
millimeter synonym, "CM" for a centimeter synonym, default "MM"
("M" is not a recognized token). -/
def claimUnits (lines : List String) : String :=
  let first := pyToLower (pyStrip (lines.getD 0 ""))
  if mmTokens.contains first then "MM"
  else if cmTokens.contains first then "CM"
  else "MM"

/-- Number of leading retained lines skipped, as the amended claim describes
it: 2 when a units token is detected on the first non-blank line and at
least one further line follows the parameter line (at least 3 retained
lines); otherwise 0 (including the short-file safety reset). -/
def claimStart (lines : List String) : ℕ :=
  let first := pyToLower (pyStrip (lines.getD 0 ""))
  if (mmTokens.contains first || cmTokens.contains first) ∧ 3 ≤ lines.length then 2 else 0

/-- C5 counterexample: the first line "m" is not detected as a units token:
the parser reports "MM" (not "M") and does not skip the next line, which is
parsed as data — contradicting the claim that "M" is accepted and that the
line after a units token is skipped. -/
theorem c5_counterexample :
    parse_wire_sections ["m", "Section-A, 1, 2, 3"] =
      .ok ("MM", [("Section-A", [⟨1, 1, 2, 3, 2⟩])]) ∧ "MM" ≠ "M" :=
  ⟨by with_unfolding_all rfl, by decide⟩

/-- C5 as amended: the parser accepts "MM" or "CM" (case-insensitive with
their synonyms) as the global units token, defaulting to "MM" when
undetected ("M" is not a token and is treated as data); when a units token
is detected on the first non-blank line and at least 3 non-blank lines are
present, the second non-blank line is skipped as an ignored parameter line;
otherwise (no token, or at most 2 non-blank lines, where a safety reset
applies) no lines are skipped and data parsing starts at the first line. -/
theorem c5_amended (raw : List String) (h : cleanLines raw ≠ []) :
    parse_wire_sections raw =
      .ok (claimUnits (cleanLines raw),
        assignIdx (collectPts (cleanLines raw) 0 (claimStart (cleanLines raw)) [])) := by
  have hne : (cleanLines raw).isEmpty = false := by
    cases hcl : cleanLines raw
    · exact absurd hcl h
    · rfl
  have hlen1 : 1 ≤ (cleanLines raw).length := by
    cases hcl : cleanLines raw
    · exact absurd hcl h
    · simp
  unfold parse_wire_sections claimUnits claimStart
  simp only [hne, Bool.false_eq_true, if_false]
  by_cases hmm : mmTokens.contains (pyToLower (pyStrip ((cleanLines raw).getD 0 ""))) = true
  · rw [if_pos hmm, if_pos hmm]
    by_cases h3 : 3 ≤ (cleanLines raw).length
    · have h2 : ¬(("MM", 2).2 ≥ (cleanLines raw).length) := by
        simp only; omega
      rw [if_neg h2, if_pos ⟨by rw [hmm, Bool.true_or], h3⟩]
    · have h2 : ("MM", 2).2 ≥ (cleanLines raw).length := by
        simp only; omega
      rw [if_pos h2, if_neg (fun hc => h3 hc.2)]
  · rw [if_neg hmm, if_neg hmm]
    by_cases hcm : cmTokens.contains (pyToLower (pyStrip ((cleanLines raw).getD 0 ""))) = true
    · rw [if_pos hcm, if_pos hcm]
      by_cases h3 : 3 ≤ (cleanLines raw).length
      · have h2 : ¬(("CM", 2).2 ≥ (cleanLines raw).length) := by
          simp only; omega
        rw [if_neg h2, if_pos ⟨by rw [hcm, Bool.or_true], h3⟩]
      · have h2 : ("CM", 2).2 ≥ (cleanLines raw).length := by
          simp only; omega
        rw [if_pos h2, if_neg (fun hc => h3 hc.2)]
    · rw [if_neg hcm, if_neg hcm]
      have hcond : ¬((mmTokens.contains (pyToLower (pyStrip ((cleanLines raw).getD 0 ""))) ||
          cmTokens.contains (pyToLower (pyStrip ((cleanLines raw).getD 0 "")))) = true ∧
          3 ≤ (cleanLines raw).length) := by
        rintro ⟨hor, _⟩
        rcases Bool.or_eq_true_iff.mp hor with hx | hx
        · exact hmm hx
        · exact hcm hx
      rw [if_neg hcond, ite_self]

/-- Witness for C5: "cm" is detected, the parameter line is skipped, and the
third line is parsed with source line number 3. -/
theorem c5_amended_witness :
    parse_wire_sections ["cm", "p=1", "Section-A, 1, 2, 3"] =
      .ok ("CM", [("Section-A", [⟨1, 1, 2, 3, 3⟩])]) := by
  rw [c5_amended ["cm", "p=1", "Section-A, 1, 2, 3"] (by with_unfolding_all decide)]
  with_unfolding_all rfl

/-! ### C7: lenient parsing and the EmptyInput condition -/

theorem mem_addPoint_pts :
    ∀ (acc : List (String × List RawPt)) (n : String) (p : RawPt) (e : String × List RawPt),
      e ∈ addPoint acc n p → ∀ q ∈ e.2, (∃ e2 ∈ acc, q ∈ e2.2) ∨ q = p
  | [], n, p, e, he, q, hq => by
    simp only [addPoint, List.mem_singleton] at he
    subst he
    simp only [List.mem_singleton] at hq
    exact Or.inr hq
  | (m, qs) :: rest, n, p, e, he, q, hq => by
    by_cases hmn : m = n
    · simp only [addPoint, if_pos hmn, List.mem_cons] at he
      rcases he with rfl | hmem
      · simp only [List.mem_append, List.mem_singleton] at hq
        rcases hq with hq | hq
        · exact Or.inl ⟨(m, qs), List.mem_cons_self _ _, hq⟩
        · exact Or.inr hq
      · exact Or.inl ⟨e, List.mem_cons_of_mem _ hmem, hq⟩
    · simp only [addPoint, if_neg hmn, List.mem_cons] at he
      rcases he with rfl | hmem
      · exact Or.inl ⟨(m, qs), List.mem_cons_self _ _, hq⟩
      · rcases mem_addPoint_pts rest n p e hmem q hq with ⟨e2, he2, hq2⟩ | hqp
        · exact Or.inl ⟨e2, List.mem_cons_of_mem _ he2, hq2⟩
        · exact Or.inr hqp

theorem collectPts_sound :
    ∀ (rest : List String) (i start : ℕ) (acc : List (String × List RawPt))
      (lines : List String), rest = List.drop i lines →
      (∀ e ∈ acc, ∀ q ∈ e.2, ∃ j, q.2.2.2 = j + 1 ∧ (dataOf (lines.getD j "")).isSome = true) →
      ∀ e ∈ collectPts rest i start acc, ∀ q ∈ e.2,
        ∃ j, q.2.2.2 = j + 1 ∧ (dataOf (lines.getD j "")).isSome = true
  | [], _, _, acc, lines, _, hacc => hacc
  | l :: rest2, i, start, acc, lines, hdrop, hacc => by
    have hl : lines.getD i "" = l := by
      have h1 : (List.drop i lines).head? = some l := by rw [← hdrop]; rfl
      rw [List.head?_drop] at h1
      rw [List.getD_eq_getElem?_getD, h1]
      rfl
    have hrest : rest2 = List.drop (i + 1) lines := by
      have h2 : (List.drop i lines).tail = rest2 := by rw [← hdrop]; rfl
      rw [List.tail_drop] at h2
      exact h2.symm
    simp only [collectPts]
    by_cases hi : i < start
    · simp only [hi, if_true]
      exact collectPts_sound rest2 (i + 1) start acc lines hrest hacc
    · simp only [hi, if_false]
      cases hdata : dataOf l with
      | none => exact collectPts_sound rest2 (i + 1) start acc lines hrest hacc
      | some v =>
        rcases v with ⟨sec, x, y, z⟩
        refine collectPts_sound rest2 (i + 1) start _ lines hrest ?_
        intro e he q hq
        rcases mem_addPoint_pts acc sec (x, y, z, i + 1) e he q hq with ⟨e2, he2, hq2⟩ | rfl
        · exact hacc e2 he2 q hq2
        · exact ⟨i, rfl, by rw [hl, hdata]; rfl⟩

theorem mem_of_mem_enumFrom {q : α} :
    ∀ (ps : List α) (n k : ℕ), (k, q) ∈ List.enumFrom n ps → q ∈ ps
  | [], _, _, h => by cases h
  | x :: xs, n, k, h => by
    simp only [List.enumFrom, List.mem_cons, Prod.mk.injEq] at h
    rcases h with ⟨_, rfl⟩ | h2
    · exact List.mem_cons_self _ _
    · exact List.mem_cons_of_mem x (mem_of_mem_enumFrom xs (n + 1) k h2)

theorem assignIdx_line (X : List (String × List RawPt)) :
    ∀ e ∈ assignIdx X, ∀ p ∈ e.2, ∃ e2 ∈ X, ∃ q ∈ e2.2, Point.line p = q.2.2.2 := by
  intro e he p hp
  simp only [assignIdx, List.mem_map] at he
  rcases he with ⟨⟨n, ps⟩, hmem, rfl⟩
  simp only [List.mem_map] at hp
  rcases hp with ⟨⟨k, q⟩, hkq, rfl⟩
  exact ⟨(n, ps), hmem, q, mem_of_mem_enumFrom ps 0 k hkq, rfl⟩

theorem dataOf_none_of_no_section {l : String}
    (h : ((splitParts l).getD 0 "").startsWith "Section-" = false) : dataOf l = none := by
  unfold dataOf
  by_cases h4 : (splitParts l).length < 4
  · rw [if_pos h4]
  · rw [if_neg h4]
    dsimp only
    rw [h]
    rfl

theorem collectPts_no_data :
    ∀ (rest : List String) (i start : ℕ) (acc : List (String × List RawPt)),
      (∀ l ∈ rest, dataOf l = none) → collectPts rest i start acc = acc
  | [], _, _, _, _ => rfl
  | l :: rest2, i, start, acc, h => by
    simp only [collectPts]
    by_cases hi : i < start
    · simp only [hi, if_true]
      exact collectPts_no_data rest2 (i + 1) start acc
        (fun m hm => h m (List.mem_cons_of_mem l hm))
    · simp only [hi, if_false, h l (List.mem_cons_self l rest2)]
      exact collectPts_no_data rest2 (i + 1) start acc
        (fun m hm => h m (List.mem_cons_of_mem l hm))

theorem parse_ok_shape {raw : List String} {u : String} {secs : List (String × List Point)}
    (h : parse_wire_sections raw = .ok (u, secs)) :
    ∃ start, secs = assignIdx (collectPts (cleanLines raw) 0 start []) := by
  unfold parse_wire_sections at h
  by_cases he : (cleanLines raw).isEmpty
  · simp [he] at h
  · simp only [he, Bool.false_eq_true, if_false, Except.ok.injEq, Prod.mk.injEq] at h
    exact ⟨_, h.2.symm⟩

/-- C7: parsing fails exactly when the input has no non-blank lines; any
input with a non-blank line parses successfully; every point in the result
comes from a well-formed data line (malformed lines are skipped, never
fatal); and an input with no section-prefixed first field yields an empty
sections mapping rather than an error. -/
theorem c7_error_handling (raw : List String) :
    ((∃ msg, parse_wire_sections raw = .error msg) ↔ cleanLines raw = []) ∧
    (cleanLines raw ≠ [] → ∃ u secs, parse_wire_sections raw = .ok (u, secs)) ∧
    (∀ u secs, parse_wire_sections raw = .ok (u, secs) →
      (∀ e ∈ secs, ∀ p ∈ e.2, 1 ≤ p.line ∧
        (dataOf ((cleanLines raw).getD (p.line - 1) "")).isSome = true) ∧
      ((∀ l ∈ cleanLines raw, ((splitParts l).getD 0 "").startsWith "Section-" = false) →
        secs = [])) := by
  refine ⟨?_, ?_, ?_⟩
  · constructor
    · rintro ⟨msg, hmsg⟩
      unfold parse_wire_sections at hmsg
      by_cases he : (cleanLines raw).isEmpty
      · exact List.isEmpty_iff.mp he
      · simp [he] at hmsg
    · intro hempty
      refine ⟨"Input file is empty or only whitespace.", ?_⟩
      unfold parse_wire_sections
      simp [hempty]
  · intro hne
    have he : (cleanLines raw).isEmpty = false := by
      cases hcl : cleanLines raw
      · exact absurd hcl hne
      · rfl
    unfold parse_wire_sections
    simp only [he, Bool.false_eq_true, if_false]
    exact ⟨_, _, rfl⟩
  · intro u secs hok
    rcases parse_ok_shape hok with ⟨start, rfl⟩
    constructor
    · intro e he p hp
      rcases assignIdx_line _ e he p hp with ⟨e2, he2, q, hq, hline⟩
      have hsound := collectPts_sound (cleanLines raw) 0 start [] (cleanLines raw) rfl
        (by intro e3 he3; cases he3) e2 he2 q hq
      rcases hsound with ⟨j, hj, hsome⟩
      rw [hline, hj]
      exact ⟨by omega, by simpa using hsome⟩
    · intro hnosec
      rw [collectPts_no_data (cleanLines raw) 0 start []
        (fun l hl => dataOf_none_of_no_section (hnosec l hl))]
      rfl

/-- Witness for C7: a non-blank input whose only line has no section prefix
parses successfully into an empty mapping. -/
theorem c7_error_handling_witness :
    ∃ u secs, parse_wire_sections ["abc, q, 1, 2"] = .ok (u, secs) ∧ secs = [] := by
  have h := c7_error_handling ["abc, q, 1, 2"]
  rcases h.2.1 (by with_unfolding_all decide) with ⟨u, secs, hok⟩
  exact ⟨u, secs, hok, (h.2.2 u secs hok).2 (by with_unfolding_all decide)⟩

/-! ### C9: numeric formatting -/

/-- The character-level normal form of `format_coord`'s output for a value
with sign `neg` and rounded scaled magnitude `n` (in units of 10⁻⁸). -/
def renderChars (neg : Bool) (n : ℕ) (force : Bool) : List Char :=
  (if neg then ['-'] else []) ++ (natStr (n / 10 ^ 8)).data ++
    (if ((fracLE8 (n % 10 ^ 8)).dropWhile (· == 0)).isEmpty then
      (if force then ['.', '0'] else [])
     else '.' :: (((fracLE8 (n % 10 ^ 8)).dropWhile (· == 0)).map digitChar).reverse)

theorem fracLE8_lt (fp : ℕ) : ∀ d ∈ fracLE8 fp, d < 10 := by
  intro d hd
  rcases List.mem_append.mp hd with h | h
  · exact digitsLE_lt fp d h
  · rw [List.eq_of_mem_replicate h]
    norm_num

theorem ofDigits_replicate_zero : ∀ k : ℕ, Nat.ofDigits 10 (List.replicate k 0) = 0
  | 0 => rfl
  | k + 1 => by
    rw [List.replicate_succ, Nat.ofDigits_cons, ofDigits_replicate_zero k]

theorem ofDigits_fracLE8 (fp : ℕ) : Nat.ofDigits 10 (fracLE8 fp) = fp := by
  unfold fracLE8
  rw [Nat.ofDigits_append, ofDigits_digitsLE, ofDigits_replicate_zero]
  simp

theorem digitsLE_length_le (fp : ℕ) (h : fp < 10 ^ 8) : (digitsLE fp).length ≤ 8 := by
  rw [digitsLE_eq]
  by_cases hfp : fp = 0
  · subst hfp; simp
  · by_contra hlen
    push_neg at hlen
    have h1 : (10 : ℕ) ^ (Nat.digits 10 fp).length ≤ 10 * fp :=
      Nat.base_pow_length_digits_le 10 fp (by norm_num) hfp
    have h2 : (10 : ℕ) ^ 9 ≤ 10 ^ (Nat.digits 10 fp).length :=
      Nat.pow_le_pow_right (by norm_num) (by omega)
    omega

theorem fracLE8_length (fp : ℕ) (h : fp < 10 ^ 8) : (fracLE8 fp).length = 8 := by
  unfold fracLE8
  rw [List.length_append, List.length_replicate]
  have := digitsLE_length_le fp h
  omega

theorem ofDigits_all_zero {l : List ℕ} (h : ∀ d ∈ l, d = 0) : Nat.ofDigits 10 l = 0 := by
  have : l = List.replicate l.length 0 :=
    List.eq_replicate_iff.mpr ⟨rfl, h⟩
  rw [this, ofDigits_replicate_zero]

/-- Splitting the fractional digits at their least-significant zeros:
`fp = 10^z * t` where `z` counts stripped zeros and `t` is the value of the
remaining digits. -/
theorem fracLE8_split (fp : ℕ) :
    fp = 10 ^ ((fracLE8 fp).takeWhile (· == 0)).length *
      Nat.ofDigits 10 ((fracLE8 fp).dropWhile (· == 0)) := by
  conv_lhs => rw [← ofDigits_fracLE8 fp, ← List.takeWhile_append_dropWhile (p := (· == 0))
    (l := fracLE8 fp)]
  rw [Nat.ofDigits_append]
  have hz : Nat.ofDigits 10 ((fracLE8 fp).takeWhile (· == 0)) = 0 := by
    apply ofDigits_all_zero
    intro d hd
    have := List.mem_takeWhile_imp hd
    simpa using this
  rw [hz]
  omega

theorem dropWhile_head_not {p : α → Bool} :
    ∀ {l : List α} {a : α} {t : List α}, l.dropWhile p = a :: t → p a = false
  | [], a, t, h => by cases h
  | x :: xs, a, t, h => by
    by_cases hx : p x = true
    · rw [List.dropWhile_cons, if_pos hx] at h
      exact dropWhile_head_not h
    · rw [List.dropWhile_cons, if_neg hx] at h
      cases h
      simpa using hx

theorem mem_dropWhile {p : α → Bool} :
    ∀ {l : List α} {a : α}, a ∈ l.dropWhile p → a ∈ l := by
  intro l
  induction l with
  | nil => intro a h; cases h
  | cons x xs ih =>
    intro a h
    rw [List.dropWhile_cons] at h
    by_cases hx : p x = true
    · rw [if_pos hx] at h
      exact List.mem_cons_of_mem x (ih h)
    · rw [if_neg hx] at h
      exact h

/-- Dropping trailing `'0'` characters of rendered fractional digits is
dropping leading zero digits of the little-endian digit list. -/
theorem dropZeroChar_map (rest : List Char) :
    ∀ l : List ℕ, (∀ d ∈ l, d < 10) →
      ((l.map digitChar) ++ '.' :: rest).dropWhile (· == '0') =
        ((l.dropWhile (· == 0)).map digitChar) ++ '.' :: rest
  | [], _ => by
    simp only [List.map_nil, List.nil_append, List.dropWhile_cons]
    rw [if_neg (by decide)]
    simp
  | d :: l2, h => by
    have hd : d < 10 := h d (List.mem_cons_self d l2)
    by_cases hd0 : d = 0
    · subst hd0
      simp only [List.map_cons, List.cons_append, List.dropWhile_cons]
      have h1 : ((digitChar 0 == '0') = true) := by decide
      have h2 : ((0 : ℕ) == 0) = true := by decide
      rw [if_pos h1, if_pos h2]
      exact dropZeroChar_map rest l2 (fun x hx => h x (List.mem_cons_of_mem _ hx))
    · simp only [List.map_cons, List.cons_append, List.dropWhile_cons]
      have h1 : ((digitChar d == '0') = false) := by
        have := (digitChar_eq_zeroChar hd).not.mpr hd0
        simpa using this
      have h2 : ((d == 0) = false) := by simpa using hd0
      rw [if_neg (by simp [h1]), if_neg (by simp [h2])]
      simp

theorem isDigit_ne_dot {c : Char} (h : c.isDigit = true) : (c == '.') = false := by
  by_contra hc
  rw [Bool.not_eq_false, beq_iff_eq] at hc
  subst hc
  cases h

theorem isDigit_ne_dash {c : Char} (h : c.isDigit = true) : c ≠ '-' := by
  intro hc
  subst hc
  cases h

/-- After the two `rstrip` passes, the fixed-point rendering has its
fractional part reduced to the significant digits (or removed entirely,
together with the decimal point). -/
theorem strip_fixed8 (w : ℚ) :
    pyRstrip (pyRstrip (fixed8 w) '0') '.' =
      (if w < 0 then ['-'] else []) ++ (natStr ((round (|w| * 10 ^ 8)).toNat / 10 ^ 8)).data ++
        (if ((fracLE8 ((round (|w| * 10 ^ 8)).toNat % 10 ^ 8)).dropWhile (· == 0)).isEmpty then []
         else '.' :: (((fracLE8 ((round (|w| * 10 ^ 8)).toNat % 10 ^ 8)).dropWhile
            (· == 0)).map digitChar).reverse) := by
  set n := (round (|w| * 10 ^ 8)).toNat with hn
  set sign := (if w < 0 then ['-'] else ([] : List Char)) with hsign
  set ipd := (natStr (n / 10 ^ 8)).data with hipd
  set fp := n % 10 ^ 8 with hfp
  set stripLE := (fracLE8 fp).dropWhile (· == 0) with hstripLE
  have hfix : fixed8 w = sign ++ ipd ++ '.' :: ((fracLE8 fp).map digitChar).reverse := rfl
  have hA : pyRstrip (fixed8 w) '0' =
      sign ++ ipd ++ ['.'] ++ (stripLE.map digitChar).reverse := by
    rw [hfix]
    unfold pyRstrip
    have hrev : (sign ++ ipd ++ '.' :: ((fracLE8 fp).map digitChar).reverse).reverse =
        (fracLE8 fp).map digitChar ++ '.' :: (ipd.reverse ++ sign.reverse) := by
      simp [List.reverse_append, List.append_assoc]
    rw [hrev, dropZeroChar_map _ _ (fracLE8_lt fp), ← hstripLE]
    simp [List.reverse_append, List.append_assoc]
  have hIpdRev : ∃ c R2, ipd.reverse = c :: R2 ∧ (c == '.') = false := by
    cases hrev : ipd.reverse with
    | nil =>
      have : ipd = [] := by simpa using congrArg List.reverse hrev
      exact absurd this (natStr_ne_empty _)
    | cons c R2 =>
      have hc : c ∈ ipd := by
        rw [← List.mem_reverse, hrev]
        exact List.mem_cons_self _ _
      exact ⟨c, R2, rfl, isDigit_ne_dot (natStr_all_digit _ c hc)⟩
  rw [hA]
  by_cases hempty : stripLE.isEmpty
  · have hnil : stripLE = [] := List.isEmpty_iff.mp hempty
    rw [if_pos hempty, hnil]
    unfold pyRstrip
    rcases hIpdRev with ⟨c, R2, hcr, hcd⟩
    have hrev : (sign ++ ipd ++ ['.'] ++ (([] : List ℕ).map digitChar).reverse).reverse =
        '.' :: (c :: (R2 ++ sign.reverse)) := by
      simp [List.reverse_append, hcr]
    rw [hrev]
    rw [List.dropWhile_cons, if_pos (by decide), List.dropWhile_cons, if_neg (by simp [hcd])]
    have : (c :: (R2 ++ sign.reverse)).reverse = sign ++ ipd := by
      have h2 : (c :: (R2 ++ sign.reverse)) = ipd.reverse ++ sign.reverse := by
        rw [hcr]; simp
      rw [h2]
      simp
    rw [this]
    simp
  · rw [if_neg hempty]
    have hne : stripLE ≠ [] := by
      intro hc
      rw [hc] at hempty
      exact hempty rfl
    rcases List.exists_cons_of_ne_nil hne with ⟨d, s2, hds⟩
    have hdmem : d ∈ fracLE8 fp := mem_dropWhile (by rw [← hstripLE, hds]; exact List.mem_cons_self _ _)
    have hdlt : d < 10 := fracLE8_lt fp d hdmem
    unfold pyRstrip
    have hrev : (sign ++ ipd ++ ['.'] ++ (stripLE.map digitChar).reverse).reverse =
        stripLE.map digitChar ++ '.' :: (ipd.reverse ++ sign.reverse) := by
      simp [List.reverse_append, List.append_assoc]
    rw [hrev, hds]
    simp only [List.map_cons, List.cons_append]
    rw [List.dropWhile_cons, if_neg (by
      have := isDigit_ne_dot (isDigit_digitChar hdlt)
      simp [this])]
    rw [← List.cons_append, ← List.map_cons, ← hds]
    simp [List.reverse_append, List.append_assoc]

theorem contains_iff_mem {l : List Char} {a : Char} : l.contains a = true ↔ a ∈ l := by
  simp [List.contains]

/-- `format_coord` in terms of the character-level normal form. -/
theorem format_coord_render (v : ℚ) (force : Bool) :
    format_coord v force =
      ⟨renderChars (decide ((if |v| < 1 / 10 ^ 12 then 0 else v) < 0))
        ((round (|(if |v| < 1 / 10 ^ 12 then 0 else v)| * 10 ^ 8)).toNat) force⟩ := by
  unfold format_coord renderChars
  set w := if |v| < 1 / 10 ^ 12 then 0 else v with hw
  set n := (round (|w| * 10 ^ 8)).toNat with hn
  set fp := n % 10 ^ 8 with hfp
  set stripLE := (fracLE8 fp).dropWhile (· == 0) with hstripLE
  set sign := (if w < 0 then ['-'] else ([] : List Char)) with hsign
  set ipd := (natStr (n / 10 ^ 8)).data with hipd
  have hsign2 : (if decide (w < 0) = true then ['-'] else ([] : List Char)) = sign := by
    rw [hsign]
    by_cases hws : w < 0
    · rw [if_pos (by simpa using hws), if_pos hws]
    · rw [if_neg (by simpa using hws), if_neg hws]
  have hstrip := strip_fixed8 w
  rw [← hsign, ← hipd, ← hn, ← hfp, ← hstripLE] at hstrip
  dsimp only
  rw [hstrip]
  by_cases hempty : stripLE.isEmpty
  · rw [if_pos hempty, if_pos hempty]
    have happ : sign ++ ipd ++ [] = sign ++ ipd := by simp
    rw [happ]
    have hne : (sign ++ ipd).isEmpty = false := by
      cases hid : ipd with
      | nil => exact absurd hid (natStr_ne_empty _)
      | cons c r => simp
    rw [hne]
    simp only [Bool.false_eq_true, if_false]
    have hnodot : (sign ++ ipd).contains '.' = false := by
      by_contra hc
      rw [Bool.not_eq_false, contains_iff_mem] at hc
      rcases List.mem_append.mp hc with hc | hc
      · rw [hsign] at hc
        by_cases hws : w < 0
        · rw [if_pos hws] at hc
          rw [List.mem_singleton] at hc
          cases hc
        · rw [if_neg hws] at hc
          cases hc
      · have := natStr_all_digit (n / 10 ^ 8) '.' hc
        cases this
    rw [hnodot]
    cases force with
    | false => simp [hsign2]
    | true => simp [hsign2, List.append_assoc]
  · rw [if_neg hempty, if_neg hempty]
    have hne2 : (sign ++ ipd ++ '.' :: (stripLE.map digitChar).reverse).isEmpty = false := by
      cases hs : sign ++ ipd ++ '.' :: (stripLE.map digitChar).reverse with
      | nil =>
        have := congrArg List.length hs
        simp at this
      | cons c r => rfl
    rw [hne2]
    simp only [Bool.false_eq_true, if_false]
    have hdot : (sign ++ ipd ++ '.' :: (stripLE.map digitChar).reverse).contains '.' = true := by
      rw [contains_iff_mem]
      simp
    rw [hdot]
    simp [hsign2]

theorem digitsVal_strippedBE (l : List ℕ) (h : ∀ d ∈ l, d < 10) :
    digitsVal ((l.map digitChar).reverse) = Nat.ofDigits 10 l := by
  unfold digitsVal
  rw [List.map_reverse, List.reverse_reverse, List.map_map]
  have h1 : l.map (charVal ∘ digitChar) = l.map id :=
    List.map_congr_left (fun d hd => charVal_digitChar (h d hd))
  rw [h1, List.map_id]

theorem split_at_dot (ipd : List Char) (hd : ∀ c ∈ ipd, c.isDigit = true)
    (frac : List Char) (hfrac : frac = [] ∨ ∃ t, frac = '.' :: t) :
    (ipd ++ frac).takeWhile (· != '.') = ipd ∧
    (ipd ++ frac).dropWhile (· != '.') = frac := by
  have hall : ∀ c ∈ ipd, (c != '.') = true := by
    intro c hc
    have := isDigit_ne_dot (hd c hc)
    simp [bne, this]
  constructor
  · rw [takeWhile_append_of_all _ _ _ hall]
    rcases hfrac with rfl | ⟨t, rfl⟩
    · simp
    · rw [List.takeWhile_cons, if_neg (by decide)]
      simp
  · rw [dropWhile_append_of_all _ _ _ hall]
    rcases hfrac with rfl | ⟨t, rfl⟩
    · rfl
    · rw [List.dropWhile_cons, if_neg (by decide)]

theorem parseNonneg_render (n : ℕ) (force : Bool) :
    parseNonneg ((natStr (n / 10 ^ 8)).data ++
      (if ((fracLE8 (n % 10 ^ 8)).dropWhile (· == 0)).isEmpty then
        (if force then ['.', '0'] else [])
       else '.' :: (((fracLE8 (n % 10 ^ 8)).dropWhile (· == 0)).map digitChar).reverse)) =
      (n : ℚ) / 10 ^ 8 := by
  set fp := n % 10 ^ 8 with hfp
  set stripLE := (fracLE8 fp).dropWhile (· == 0) with hstripLE
  set ipd := (natStr (n / 10 ^ 8)).data with hipd
  set frac := (if stripLE.isEmpty then (if force then ['.', '0'] else [])
    else '.' :: ((stripLE.map digitChar)).reverse) with hfrac
  have hfp_lt : fp < 10 ^ 8 := Nat.mod_lt _ (by norm_num)
  have hdm : 10 ^ 8 * (n / 10 ^ 8) + fp = n := Nat.div_add_mod n (10 ^ 8)
  have hshape : frac = [] ∨ ∃ t, frac = '.' :: t := by
    rw [hfrac]
    by_cases he : stripLE.isEmpty
    · rw [if_pos he]
      cases force
      · left; rfl
      · right; exact ⟨['0'], rfl⟩
    · rw [if_neg he]
      right
      exact ⟨_, rfl⟩
  rcases split_at_dot ipd (natStr_all_digit _) frac hshape with ⟨htake, hdrop⟩
  unfold parseNonneg
  rw [htake, hdrop]
  dsimp only
  rw [digitsVal_natStr]
  by_cases he : stripLE.isEmpty
  · have hfp0 : fp = 0 := by
      have := fracLE8_split fp
      rw [← hstripLE, List.isEmpty_iff.mp he, Nat.ofDigits_nil] at this
      omega
    have h2 : n = 10 ^ 8 * (n / 10 ^ 8) := by omega
    have hq : (n : ℚ) = 10 ^ 8 * ((n / 10 ^ 8 : ℕ) : ℚ) := by
      conv_lhs => rw [h2]
      push_cast
      ring
    rw [hfrac, if_pos he]
    cases force
    · simp only [Bool.false_eq_true, if_false]
      simp only [List.tail_nil, List.length_nil]
      have hd0 : digitsVal ([] : List Char) = 0 := rfl
      rw [hd0, hq]
      push_cast
      field_simp
    · simp only [if_true]
      simp only [List.tail_cons, List.length_cons, List.length_nil]
      have hd0 : digitsVal ['0'] = 0 := by decide
      rw [hd0, hq]
      push_cast
      field_simp
  · rw [hfrac, if_neg he]
    simp only [List.tail_cons]
    have hlt : ∀ d ∈ stripLE, d < 10 := fun d hd => fracLE8_lt fp d (mem_dropWhile hd)
    rw [digitsVal_strippedBE stripLE hlt]
    set t := Nat.ofDigits 10 stripLE with ht
    set L := stripLE.length with hL
    set z := ((fracLE8 fp).takeWhile (· == 0)).length with hz
    have hsplit : fp = 10 ^ z * t := by
      rw [hz, ht, hstripLE]
      exact fracLE8_split fp
    have hzL : z + L = 8 := by
      have hlen := congrArg List.length
        (List.takeWhile_append_dropWhile (p := (· == 0)) (l := fracLE8 fp))
      rw [List.length_append] at hlen
      rw [hz, hL, hstripLE]
      rw [fracLE8_length fp hfp_lt] at hlen
      exact hlen
    have hLlen : ((stripLE.map digitChar).reverse).length = L := by
      rw [List.length_reverse, List.length_map]
    rw [hLlen]
    have h10L : (10 : ℚ) ^ 8 = 10 ^ z * 10 ^ L := by
      rw [← pow_add, hzL]
    rw [hsplit] at hdm
    have hn8 : (n : ℚ) = 10 ^ 8 * ((n / 10 ^ 8 : ℕ) : ℚ) + 10 ^ z * (t : ℚ) := by
      conv_lhs => rw [← hdm]
      push_cast
      ring
    rw [hn8, h10L]
    have hz0 : (10 : ℚ) ^ z ≠ 0 := by positivity
    have hL0 : (10 : ℚ) ^ L ≠ 0 := by positivity
    field_simp
    ring

theorem parse_renderChars (neg : Bool) (n : ℕ) (force : Bool) :
    parseDec ⟨renderChars neg n force⟩ =
      if neg then -((n : ℚ) / 10 ^ 8) else (n : ℚ) / 10 ^ 8 := by
  set frac := (if ((fracLE8 (n % 10 ^ 8)).dropWhile (· == 0)).isEmpty then
    (if force then ['.', '0'] else [])
   else '.' :: (((fracLE8 (n % 10 ^ 8)).dropWhile (· == 0)).map digitChar).reverse)
    with hfracdef
  have hrc : renderChars neg n force =
      (if neg then ['-'] else []) ++ (natStr (n / 10 ^ 8)).data ++ frac := rfl
  cases neg
  · simp only [Bool.false_eq_true, if_false]
    unfold parseDec
    rw [hrc]
    simp only [Bool.false_eq_true, if_false, List.nil_append]
    have hne := natStr_ne_empty (n / 10 ^ 8)
    rcases hex : (natStr (n / 10 ^ 8)).data with _ | ⟨c, r⟩
    · exact absurd hex hne
    · have hc : c.isDigit = true := by
        apply natStr_all_digit (n / 10 ^ 8)
        rw [hex]
        exact List.mem_cons_self _ _
      rw [List.cons_append, List.head?_cons]
      rw [if_neg (by
        intro hcc
        rw [Option.some.injEq] at hcc
        exact isDigit_ne_dash hc hcc)]
      rw [← List.cons_append, ← hex]
      exact parseNonneg_render n force
  · simp only [if_true]
    unfold parseDec
    rw [hrc]
    simp only [if_true]
    have hlist : (['-'] : List Char) ++ (natStr (n / 10 ^ 8)).data ++ frac =
        '-' :: ((natStr (n / 10 ^ 8)).data ++ frac) := by simp
    rw [hlist, List.head?_cons, if_pos rfl, List.tail_cons]
    rw [parseNonneg_render n force]

/-- C9 counterexample: formatting `-10⁻⁹` yields `"-0"` (the sign survives
while the digits round to zero), but re-formatting the numeric value of
`"-0"` yields `"0"`: formatting is not idempotent for tiny negative values. -/
theorem c9_counterexample :
    format_coord (-1 / 10 ^ 9) false = "-0" ∧
    parseDec (format_coord (-1 / 10 ^ 9) false) = 0 ∧
    format_coord (parseDec (format_coord (-1 / 10 ^ 9) false)) false = "0" ∧
    ("-0" : String) ≠ "0" :=
  ⟨by with_unfolding_all rfl, by with_unfolding_all rfl,
   by with_unfolding_all rfl, by decide⟩

/-- C9 as amended: numeric formatting is idempotent
(`format (parse (format v)) = format v`, for both settings of the
force-decimal flag) for every value `v` that is nonnegative, or negligible
(`|v| < 10⁻¹²`, normalized to zero), or of magnitude at least `1/(2·10⁸)`
(so that its digits do not round to the `"-0"` rendering). -/
theorem c9_amended (v : ℚ) (force : Bool)
    (h : 0 ≤ v ∨ |v| < 1 / 10 ^ 12 ∨ 1 / (2 * 10 ^ 8) ≤ |v|) :
    format_coord (parseDec (format_coord v force)) force = format_coord v force := by
  rw [format_coord_render v force, parse_renderChars]
  set w := if |v| < 1 / 10 ^ 12 then 0 else v with hw
  set n := (round (|w| * 10 ^ 8)).toNat with hn
  set neg := decide (w < 0) with hneg
  have hn0 : n = 0 → neg = false := by
    intro h0
    by_contra hnegt
    rw [Bool.not_eq_false] at hnegt
    have hw0 : w < 0 := of_decide_eq_true (hneg ▸ hnegt)
    have hveps : ¬(|v| < 1 / 10 ^ 12) := by
      intro hcon
      rw [hw, if_pos hcon] at hw0
      exact lt_irrefl 0 hw0
    have hwv : w = v := by rw [hw, if_neg hveps]
    have hmag : 1 / (2 * 10 ^ 8 : ℚ) ≤ |v| := by
      rcases h with h1 | h2 | h3
      · rw [hwv] at hw0; linarith
      · exact absurd h2 hveps
      · exact h3
    have hq : (1 : ℚ) / 2 ≤ |w| * 10 ^ 8 := by
      rw [hwv]
      calc (1 : ℚ) / 2 = (1 / (2 * 10 ^ 8)) * 10 ^ 8 := by norm_num
        _ ≤ |v| * 10 ^ 8 := mul_le_mul_of_nonneg_right hmag (by positivity)
    have hround : (1 : ℤ) ≤ round (|w| * 10 ^ 8) := by
      rw [round_eq]
      apply Int.le_floor.mpr
      push_cast
      linarith
    rw [hn] at h0
    omega
  by_cases hzero : n = 0
  · rw [hzero, hn0 hzero]
    simp only [Bool.false_eq_true, if_false]
    have hv0 : ((0 : ℕ) : ℚ) / 10 ^ 8 = 0 := by norm_num
    rw [hv0, format_coord_render]
    rw [ite_self, abs_zero, zero_mul, round_zero]
    rw [show decide ((0 : ℚ) < 0) = false from decide_eq_false (lt_irrefl 0)]
    rfl
  · have hn1 : (1 : ℚ) / 10 ^ 8 ≤ (n : ℚ) / 10 ^ 8 := by
      gcongr
      exact_mod_cast Nat.one_le_iff_ne_zero.mpr hzero
    have heps8 : (1 : ℚ) / 10 ^ 12 < 1 / 10 ^ 8 := by norm_num
    cases hnegv : neg with
    | false =>
      simp only [Bool.false_eq_true, if_false]
      rw [format_coord_render]
      have habs : |(n : ℚ) / 10 ^ 8| = (n : ℚ) / 10 ^ 8 := abs_of_nonneg (by positivity)
      have hlt : ¬(|(n : ℚ) / 10 ^ 8| < 1 / 10 ^ 12) := by
        rw [habs]
        linarith
      rw [if_neg hlt, habs]
      have hdm : (n : ℚ) / 10 ^ 8 * 10 ^ 8 = (n : ℚ) := by field_simp
      rw [hdm, round_natCast]
      rw [show decide ((n : ℚ) / 10 ^ 8 < 0) = false from
        decide_eq_false (not_lt.mpr (by positivity))]
      rw [Int.toNat_natCast]
    | true =>
      simp only [if_true]
      rw [format_coord_render]
      have habs : |(-((n : ℚ) / 10 ^ 8))| = (n : ℚ) / 10 ^ 8 := by
        rw [abs_neg]
        exact abs_of_nonneg (by positivity)
      have hlt : ¬(|(-((n : ℚ) / 10 ^ 8))| < 1 / 10 ^ 12) := by
        rw [habs]
        linarith
      rw [if_neg hlt, habs]
      have hdm : (n : ℚ) / 10 ^ 8 * 10 ^ 8 = (n : ℚ) := by field_simp
      rw [hdm, round_natCast]
      rw [show decide (-((n : ℚ) / 10 ^ 8) < 0) = true from
        decide_eq_true (by
          have : (0 : ℚ) < (n : ℚ) / 10 ^ 8 := by linarith
          linarith)]
      rw [Int.toNat_natCast]

/-- Witness for C9 at a concrete negative value of large magnitude. -/
theorem c9_amended_witness :
    format_coord (parseDec (format_coord (-5 / 2) true)) true = format_coord (-5 / 2) true :=
  c9_amended (-5 / 2) true (Or.inr (Or.inr (by
    rw [abs_of_nonpos (by norm_num)]
    norm_num)))

end WireSections

